import Mathlib

/-!
Verification of the parity-compose harness: the gateway mock broker
(`deploy/parity-compose/gateway_mock.py`), the assertor's decision collector
(`deploy/parity-compose/assertor.py`), the producer's readiness poller
(`deploy/parity-compose/producer.py`) and the policy-bundle signer
(`scripts/security/rotate-policy-bundle.py`), shallowly embedded in Lean.

JSON values are modelled by `JValue`.  An `obj` models a Python dict
produced by `json.loads` (keys unique); numbers are modelled by `Int`,
which covers every numeric literal appearing in this code base.
-/

inductive JValue where
  | null
  | bool (b : Bool)
  | str (s : String)
  | num (n : Int)
  | arr (xs : List JValue)
  | obj (fs : List (String × JValue))
deriving Repr

mutual

def beqJ : JValue → JValue → Bool
  | .null, .null => true
  | .bool a, .bool b => a == b
  | .str a, .str b => a == b
  | .num a, .num b => a == b
  | .arr xs, .arr ys => beqJList xs ys
  | .obj fs, .obj gs => beqJFields fs gs
  | _, _ => false

def beqJList : List JValue → List JValue → Bool
  | [], [] => true
  | x :: xs, y :: ys => beqJ x y && beqJList xs ys
  | _, _ => false

def beqJFields : List (String × JValue) → List (String × JValue) → Bool
  | [], [] => true
  | (k, v) :: fs, (l, w) :: gs => k == l && beqJ v w && beqJFields fs gs
  | _, _ => false

end

mutual

theorem beqJ_eq : ∀ a b, beqJ a b = true ↔ a = b
  | .null, b => by cases b <;> simp [beqJ]
  | .bool a, b => by cases b <;> simp [beqJ]
  | .str a, b => by cases b <;> simp [beqJ]
  | .num a, b => by cases b <;> simp [beqJ]
  | .arr xs, b => by
      cases b <;> simp [beqJ]
      exact beqJList_eq xs _
  | .obj fs, b => by
      cases b <;> simp [beqJ]
      exact beqJFields_eq fs _

theorem beqJList_eq : ∀ xs ys, beqJList xs ys = true ↔ xs = ys
  | [], ys => by cases ys <;> simp [beqJList]
  | x :: xs, ys => by
      cases ys <;> simp [beqJList]
      rw [beqJ_eq, beqJList_eq]

theorem beqJFields_eq : ∀ fs gs, beqJFields fs gs = true ↔ fs = gs
  | [], gs => by cases gs <;> simp [beqJFields]
  | (k, v) :: fs, gs => by
      cases gs with
      | nil => simp [beqJFields]
      | cons g gs =>
          obtain ⟨l, w⟩ := g
          simp [beqJFields]
          rw [beqJ_eq, beqJFields_eq]

end

instance : DecidableEq JValue := fun a b =>
  decidable_of_iff (beqJ a b = true) (beqJ_eq a b)

instance instDecEqExcept {ε α : Type} [DecidableEq ε] [DecidableEq α] :
    DecidableEq (Except ε α) := fun x y =>
  match x, y with
  | .ok a, .ok b => if h : a = b then .isTrue (by rw [h]) else .isFalse (by simp [h])
  | .error e, .error f => if h : e = f then .isTrue (by rw [h]) else .isFalse (by simp [h])
  | .ok _, .error _ => .isFalse (by simp)
  | .error _, .ok _ => .isFalse (by simp)

/-!
Python string primitives used by this code base, modelled over the
character list of the string: `s.strip()`, `s.lower()` and the `<`/`<=`
comparisons used by `sorted`.  (`strip`/`lower` are modelled on the
whitespace/letter ranges the harness actually produces; `sorted` on
strings is lexicographic by code point, which `strLeB` matches.)
-/

/-- Python `s.strip()`. -/
def pyStrip (s : String) : String :=
  ⟨((s.data.dropWhile Char.isWhitespace).reverse.dropWhile Char.isWhitespace).reverse⟩

/-- Python `s.lower()`. -/
def pyLower (s : String) : String := ⟨s.data.map Char.toLower⟩

/-- Lexicographic (code-point) `<=` on character lists. -/
def strLeB : List Char → List Char → Bool
  | [], _ => true
  | _ :: _, [] => false
  | a :: as, b :: bs =>
      if a.toNat < b.toNat then true
      else if b.toNat < a.toNat then false
      else strLeB as bs

/-- Comparison `a <= b` on Python strings, the order `sorted` sorts by. -/
def pyStrLe (a b : String) : Bool := strLeB a.data b.data

example : pyStrip "  aB c " = "aB c" := by decide
example : pyLower (pyStrip " Block ") = "block" := by decide
example : pyStrLe "abc" "abd" = true := by decide

/-- Python truthiness (`bool(x)`) on JSON values. -/
def pyTruthy : JValue → Bool
  | .null => false
  | .bool b => b
  | .str s => !s.isEmpty
  | .num n => n != 0
  | .arr xs => !xs.isEmpty
  | .obj fs => !fs.isEmpty

/-- Python `a or b`: returns `a` when `a` is truthy, otherwise `b`. -/
def pyOrJ (a b : JValue) : JValue := if pyTruthy a then a else b

/-- Dictionary lookup, `d.get(k)` returning `none` for a missing key. -/
def jlookup (fs : List (String × JValue)) (k : String) : Option JValue :=
  (fs.find? (fun p => p.1 = k)).map Prod.snd

example : jlookup [("a", .num 1), ("b", .null)] "b" = some .null := by decide
example : jlookup [("a", .num 1)] "c" = none := by decide

/-!
`str(x)` / `repr(x)` on JSON-image values.  Scalars are exact; the
renderings of containers mirror CPython's (`[...]` with `, ` separators,
quoted strings inside containers); string-escape corner cases inside
container renderings are not modelled (no behaviour verified here
depends on the rendering of a container).
-/

mutual

def pyStrAux : Bool → JValue → String
  | _, .null => "None"
  | _, .bool true => "True"
  | _, .bool false => "False"
  | false, .str s => s
  | true, .str s => "\x27" ++ s ++ "\x27"
  | _, .num n => toString n
  | _, .arr xs => "[" ++ pyStrList xs ++ "]"
  | _, .obj fs => "\x7b" ++ pyStrFields fs ++ "\x7d"

def pyStrList : List JValue → String
  | [] => ""
  | [x] => pyStrAux true x
  | x :: xs => pyStrAux true x ++ ", " ++ pyStrList xs

def pyStrFields : List (String × JValue) → String
  | [] => ""
  | [(k, v)] => "\x27" ++ k ++ "\x27: " ++ pyStrAux true v
  | (k, v) :: fs => "\x27" ++ k ++ "\x27: " ++ pyStrAux true v ++ ", " ++ pyStrFields fs

end

/-- Python `str(x)`. -/
def pyStr (v : JValue) : String := pyStrAux false v

/-!
## Assertor: decision extraction and the decision collector
(`deploy/parity-compose/assertor.py`).

Frames arrive as JSON text and are parsed by `json.loads`; the embedding
works with the parsed `JValue` directly (a non-dict parse result is the
`JValue` non-`obj` case; unparsable text never produces a decision and is
subsumed by the non-`obj` case).
-/

/-- The three valid decision actions. -/
def validActions : List String := ["allow", "review", "block"]

/-- Function `extract_decision` (assertor.py lines 87-105): returns
`(request_id, action)` for a well-formed decision event, `none` otherwise. -/
def extract_decision (frame : JValue) : Option (String × String) :=
  match frame with
  | .obj fs =>
      if jlookup fs "type" ≠ some (.str "event") then none
      else if jlookup fs "event" ≠ some (.str "security.decision") then none
      else
        match jlookup fs "payload" with
        | some (.obj ps) =>
            let request_id := pyStrip (pyStr ((jlookup ps "requestId").getD (.str "")))
            if request_id = "" then none
            else
              match jlookup ps "decision" with
              | some (.obj ds) =>
                  let action :=
                    pyLower (pyStrip (pyStr ((jlookup ds "action").getD (.str ""))))
                  if validActions.contains action then some (request_id, action)
                  else none
              | _ => none
        | _ => none
  | _ => none

/-- A well-formed decision event frame, as the gateway relays them. -/
def decisionFrame (rid action : String) : JValue :=
  .obj [("type", .str "event"), ("event", .str "security.decision"),
        ("payload", .obj [("requestId", .str rid),
                          ("decision", .obj [("action", .str action)])])]

example : extract_decision (decisionFrame "A" "block") = some ("A", "block") := by decide
example : extract_decision (decisionFrame "A" "nuke") = none := by decide
example : extract_decision (.obj [("type", .str "resp")]) = none := by decide

/-! Association-list operations mirroring Python dict behaviour
(`d[k] = v` keeps the original position of an existing key and appends a
new one; `del d[k]` removes the single binding of `k`; `k in d` tests
key membership). -/

def hasKey (fs : List (String × String)) (k : String) : Bool :=
  fs.any (fun p => p.1 = k)

def dictSetS (fs : List (String × String)) (k v : String) : List (String × String) :=
  if hasKey fs k then fs.map (fun p => if p.1 = k then (k, v) else p)
  else fs ++ [(k, v)]

/-- A Python dict built from a list of pairs: later bindings overwrite. -/
def toDictLast (entries : List (String × String)) : List (String × String) :=
  entries.foldl (fun acc e => dictSetS acc e.1 e.2) []

def dropKey (fs : List (String × String)) (k : String) : List (String × String) :=
  fs.filter (fun p => p.1 ≠ k)

inductive CollectorError where
  | timeoutMissing (missing : List String)
  | duplicateDecision (requestId : String)
  | unexpectedAction (requestId expected actual : String)
deriving DecidableEq, Repr

/-- One iteration of the body of the main loop of `wait_for_decisions`
(assertor.py lines 122-139), processing a single inbound frame. -/
def collectStep (pending seen : List (String × String)) (frame : JValue) :
    Except CollectorError (List (String × String) × List (String × String)) :=
  match extract_decision frame with
  | none => .ok (pending, seen)
  | some (request_id, action) =>
      if hasKey seen request_id then .error (.duplicateDecision request_id)
      else
        match pending.find? (fun p => p.1 = request_id) with
        | none => .ok (pending, seen)
        | some (_, expected_action) =>
            if action ≠ expected_action then
              .error (.unexpectedAction request_id expected_action action)
            else .ok (dropKey pending request_id, dictSetS seen request_id action)

/-- The main loop of `wait_for_decisions` (assertor.py lines 116-139).
Real time is abstracted: the list `frames` holds exactly the frames that
arrive before the shared deadline, so exhausting it while expectations
are still pending is the deadline elapsing (the `TimeoutError` naming the
sorted missing ids).  On success it returns `seen` together with the
frames left for the post-completion grace window. -/
def collectLoop (pending seen : List (String × String)) (frames : List JValue) :
    Except CollectorError (List (String × String) × List JValue) :=
  if pending.isEmpty then .ok (seen, frames)
  else
    match frames with
    | [] =>
        .error (.timeoutMissing ((pending.map Prod.fst).mergeSort pyStrLe))
    | f :: rest =>
        match collectStep pending seen f with
        | .error e => .error e
        | .ok (p, s) => collectLoop p s rest

/-- The post-completion grace window of `wait_for_decisions` (assertor.py
lines 141-157): the frames arriving inside the fixed 0.35s window are read;
a well-formed decision event for an id already in `seen` is a duplicate
failure; everything else is ignored; the window elapsing (frame supply
exhausted) is success. -/
def graceLoop (seen : List (String × String)) (frames : List JValue) :
    Except CollectorError Unit :=
  match frames with
  | [] => .ok ()
  | f :: rest =>
      match extract_decision f with
      | some (request_id, _) =>
          if hasKey seen request_id then .error (.duplicateDecision request_id)
          else graceLoop seen rest
      | none => graceLoop seen rest

/-- Function `wait_for_decisions` (assertor.py lines 108-158).  `frames` is the
whole inbound frame sequence; the split between main loop and grace
window falls where the pending set empties. -/
def wait_for_decisions (expected_events : List (String × String))
    (frames : List JValue) : Except CollectorError (List (String × String)) :=
  let expected := toDictLast expected_events
  match collectLoop expected [] frames with
  | .error e => .error e
  | .ok (seen, rest) =>
      match graceLoop seen rest with
      | .error e => .error e
      | .ok _ => .ok seen

example :
    wait_for_decisions [("A", "block"), ("B", "allow")]
      [decisionFrame "B" "allow", decisionFrame "A" "block"] =
    .ok [("B", "allow"), ("A", "block")] := by decide

example :
    wait_for_decisions [("A", "block")]
      [decisionFrame "A" "block", decisionFrame "A" "block"] =
    .error (.duplicateDecision "A") := by decide

example :
    wait_for_decisions [("A", "block")] [decisionFrame "A" "allow"] =
    .error (.unexpectedAction "A" "block" "allow") := by decide

unseal List.merge List.mergeSort in
example :
    wait_for_decisions [("A", "block")] [] =
    .error (.timeoutMissing ["A"]) := by decide

/-!
## Assertor: `parse_scenario` (assertor.py lines 30-66)

`scenario` is the result of `json.loads(PARITY_SCENARIO_JSON)` when the
environment variable is non-empty, `none` when it is empty or unset
(malformed JSON raises inside `json.loads`, before this logic runs).
`action_id` is `PARITY_ACTION_ID`; `expect_action` is
`PARITY_EXPECT_ACTION` after its `.strip().lower()` at load time.
-/

def parse_scenario_item (idx : Nat) (expect_action : String) (item : JValue) :
    Except String (String × String) :=
  match item with
  | .obj fs =>
      let request_id := pyStrip (pyStr
        (pyOrJ ((jlookup fs "id").getD .null)
          (pyOrJ ((jlookup fs "requestId").getD .null)
            (pyOrJ ((jlookup fs "actionId").getD .null) (.str "")))))
      if request_id = "" then
        .error ("PARITY_SCENARIO_JSON[" ++ toString idx ++ "] missing id")
      else
        let expected_action := pyLower (pyStrip (pyStr
          (pyOrJ ((jlookup fs "expectedAction").getD .null)
            (pyOrJ ((jlookup fs "expectAction").getD .null) (.str expect_action)))))
        if validActions.contains expected_action then .ok (request_id, expected_action)
        else
          .error ("PARITY_SCENARIO_JSON[" ++ toString idx ++
            "] invalid expected action `" ++ expected_action ++ "`")
  | _ => .error ("PARITY_SCENARIO_JSON[" ++ toString idx ++ "] must be an object")

def parse_scenario_items (expect_action : String) :
    Nat → List JValue → Except String (List (String × String))
  | _, [] => .ok []
  | idx, item :: rest =>
      match parse_scenario_item idx expect_action item with
      | .error e => .error e
      | .ok p =>
          match parse_scenario_items expect_action (idx + 1) rest with
          | .error e => .error e
          | .ok es => .ok (p :: es)

def parse_scenario (scenario : Option JValue) (action_id expect_action : String) :
    Except String (List (String × String)) :=
  match scenario with
  | none => .ok [(action_id, expect_action)]
  | some v =>
      match v with
      | .arr items =>
          match parse_scenario_items expect_action 0 items with
          | .error e => .error e
          | .ok events =>
              if events.isEmpty then
                .error "PARITY_SCENARIO_JSON must contain at least one event"
              else .ok events
      | _ => .error "PARITY_SCENARIO_JSON must be a JSON array"

example :
    parse_scenario (some (.arr [.obj [("id", .str "a1"), ("expectedAction", .str "Allow")]]))
      "parity-action-1" "block" = .ok [("a1", "allow")] := by decide
example :
    parse_scenario none "parity-action-1" "block" = .ok [("parity-action-1", "block")] :=
  by decide
example :
    parse_scenario (some (.arr [])) "parity-action-1" "block" =
    .error "PARITY_SCENARIO_JSON must contain at least one event" := by decide

/-!
## Gateway mock broker (`deploy/parity-compose/gateway_mock.py`)

Connections have no natural identity; following the registry design each
accepted connection is modelled by a numeric handle (`ConnId`).  The
registry `GatewayState._clients` is a dict keyed by connection.  The
per-connection mutex makes register/unregister/broadcast-snapshot atomic,
so the sequential functions below are the atomic units of the broker.
-/

abbrev ConnId := Nat

/-- The `ClientState` dataclass (gateway_mock.py lines 32-34). -/
structure ClientState where
  client_name : String := "unknown"
deriving DecidableEq, Repr

abbrev Registry := List (ConnId × ClientState)

def hasConn (reg : Registry) (ws : ConnId) : Bool := reg.any (fun p => p.1 = ws)

/-- Method `GatewayState.register`: dict insert (an existing key keeps its
position, a new key is appended). -/
def register (reg : Registry) (ws : ConnId) (name : String) : Registry :=
  if hasConn reg ws then reg.map (fun p => if p.1 = ws then (ws, ⟨name⟩) else p)
  else reg ++ [(ws, ⟨name⟩)]

/-- Method `GatewayState.unregister`: `self._clients.pop(ws, None)`. -/
def unregister (reg : Registry) (ws : ConnId) : Registry :=
  reg.filter (fun p => p.1 ≠ ws)

/-- Method `GatewayState.known_clients`: `sorted({state.client_name for ...})`.
Sorting the deduplicated names is order-canonical, so the unspecified
set-iteration order of Python cannot show through. -/
def known_clients (reg : Registry) : List String :=
  ((reg.map (fun p => p.2.client_name)).dedup).mergeSort pyStrLe

/-- Function `make_response` (gateway_mock.py lines 23-29), kept as the structured
frame (the source serializes it right away; serialization is injective on
these frames). -/
def make_response (req_id : String) (ok : Bool) (result error : Option JValue) : JValue :=
  if ok then
    .obj [("type", .str "resp"), ("id", .str req_id), ("ok", .bool true),
          ("result", result.getD (.obj []))]
  else
    .obj [("type", .str "resp"), ("id", .str req_id), ("ok", .bool false),
          ("error", error.getD (.obj [("code", .num 500), ("message", .str "unknown")]))]

/-- Expression `str(frame.get("id", "unknown"))` (gateway_mock.py line 75). -/
def reqIdOf (fs : List (String × JValue)) : String :=
  pyStr ((jlookup fs "id").getD (.str "unknown"))

/-- Expression `str(frame.get("method", "")).strip().lower()` (line 76). -/
def methodOf (fs : List (String × JValue)) : String :=
  pyLower (pyStrip (pyStr ((jlookup fs "method").getD (.str ""))))

/-- Normalisation of `params` (lines 77-79): a non-dict becomes `\x7b\x7d`. -/
def paramsOf (fs : List (String × JValue)) : List (String × JValue) :=
  match jlookup fs "params" with
  | some (.obj ps) => ps
  | _ => []

/-- Expression `auth.get("token") if isinstance(auth, dict) else ""` (lines 82-83). -/
def suppliedToken (fs : List (String × JValue)) : JValue :=
  match jlookup (paramsOf fs) "auth" with
  | some (.obj as) => (jlookup as "token").getD .null
  | _ => .str ""

/-- Expression `str(params.get("client") or "unknown-client")` (line 95). -/
def connectClientName (fs : List (String × JValue)) : String :=
  pyStr (pyOrJ ((jlookup (paramsOf fs) "client").getD .null) (.str "unknown-client"))

/-- The effect of handling one request frame: the frames sent back on the
requesting connection, the close code (if the connection is closed) and
the registry afterwards. -/
structure HandleEffect where
  sends : List JValue
  close : Option Nat
  registry : Registry
deriving DecidableEq, Repr

/-- Function `handle_request` (gateway_mock.py lines 72-118). -/
def handle_request (token_cfg : String) (reg : Registry) (ws : ConnId)
    (fs : List (String × JValue)) : HandleEffect :=
  let req_id := reqIdOf fs
  let method := methodOf fs
  if method = "connect" then
    if token_cfg ≠ "" ∧ suppliedToken fs ≠ .str token_cfg then
      { sends := [make_response req_id false none
          (some (.obj [("code", .num 401), ("message", .str "invalid gateway token")]))],
        close := some 4001, registry := reg }
    else
      let client_name := connectClientName fs
      { sends := [make_response req_id true
          (some (.obj [("ok", .bool true), ("client", .str client_name)])) none],
        close := none, registry := register reg ws client_name }
  else if method = "health" ∨ method = "status" ∨ method = "parity.clients" then
    let clients := known_clients reg
    { sends := [make_response req_id true
        (some (.obj [("status", .str "ok"), ("clientCount", .num clients.length),
                     ("clients", .arr (clients.map .str))])) none],
      close := none, registry := reg }
  else
    { sends := [make_response req_id false none
        (some (.obj [("code", .num 404),
                     ("message", .str ("unsupported method: " ++ method))]))],
      close := none, registry := reg }

/-- Method `GatewayState.broadcast` (gateway_mock.py lines 57-69).  `sendFails t`
says whether `t.send(...)` raises for target `t`.  Returns the deliveries
(each target paired with the frame it receives, verbatim) and the registry
after the stale targets have been unregistered.  The `try`/`except` around
each send makes the operation total: no send failure escapes. -/
def broadcast (reg : Registry) (frame : JValue) (exclude : Option ConnId)
    (sendFails : ConnId → Bool) : List (ConnId × JValue) × Registry :=
  let targets := (reg.map Prod.fst).filter (fun t => exclude ≠ some t)
  let sent := (targets.filter (fun t => !sendFails t)).map (fun t => (t, frame))
  let stale := targets.filter sendFails
  (sent, stale.foldl (fun r t => unregister r t) reg)

/-- The combined effect of dispatching one inbound frame. -/
structure FrameEffect where
  senderSends : List JValue
  broadcastSends : List (ConnId × JValue)
  registry : Registry
  close : Option Nat
deriving DecidableEq, Repr

/-- Expression `str(frame.get("type", "")).strip().lower()` (line 132). -/
def frameTypeOf (fs : List (String × JValue)) : String :=
  pyLower (pyStrip (pyStr ((jlookup fs "type").getD (.str ""))))

/-- One iteration of `connection_loop` (gateway_mock.py lines 123-140):
dispatch of a single parsed inbound frame.  Unparsable and non-dict frames
are dropped silently; dispatch consults neither the registry nor the token
before delegating. -/
def process_frame (token_cfg : String) (reg : Registry) (ws : ConnId)
    (sendFails : ConnId → Bool) (frame : JValue) : FrameEffect :=
  match frame with
  | .obj fs =>
      let frame_type := frameTypeOf fs
      if frame_type = "req" then
        let eff := handle_request token_cfg reg ws fs
        { senderSends := eff.sends, broadcastSends := [],
          registry := eff.registry, close := eff.close }
      else if frame_type = "event" then
        let (sent, reg2) := broadcast reg frame (some ws) sendFails
        { senderSends := [], broadcastSends := sent, registry := reg2, close := none }
      else
        { senderSends := [], broadcastSends := [], registry := reg, close := none }
  | _ => { senderSends := [], broadcastSends := [], registry := reg, close := none }

/-- A valid `connect` request frame as the harness clients send it. -/
def connectFrame (client token : String) : List (String × JValue) :=
  [("type", .str "req"), ("id", .str ("connect-" ++ client)), ("method", .str "connect"),
   ("params", .obj [("client", .str client), ("role", .str "client"),
                    ("auth", .obj [("token", .str token)])])]

example :
    (handle_request "secret" [] 0 (connectFrame "a" "wrong")).close = some 4001 := by decide
example :
    (handle_request "secret" [] 0 (connectFrame "a" "secret")).registry =
    [(0, ⟨"a"⟩)] := by decide
example :
    (handle_request "" [] 0 (connectFrame "a" "anything")).registry =
    [(0, ⟨"a"⟩)] := by decide

/-!
## Producer: readiness poller (`deploy/parity-compose/producer.py` 109-132)

Each loop iteration sends one `parity.clients` request and awaits its
response through `wait_for_response` with the fixed per-call timeout
`timeout=5.0`; on a response it checks whether all required names are in
the returned list, and only then compares the clock against the overall
deadline.  A trace entry records one such iteration: how long the
response took, the clock value at the deadline check, and the client list
the response carried (the gateway always answers these requests, with
`clients` a list of strings).  Times are in milliseconds on an abstract
monotonic clock.
-/

structure PollObs where
  respDelayMs : Int
  checkTime : Int
  clients : List String
deriving DecidableEq, Repr

inductive PollOutcome where
  | ready (clients : List String)
  | overallTimeout (lastSeen : List String)
  | respTimeout (requestId : String)
deriving DecidableEq, Repr

/-- The per-call timeout of each poll's `wait_for_response`
(the literal `timeout=5.0` at producer.py line 125), in ms.  A constant:
it depends neither on the poll interval nor on the overall deadline. -/
def per_call_timeout_ms : Int := 5000

/-- The fixed poll interval (`asyncio.sleep(0.5)`, line 132), in ms. -/
def poll_interval_ms : Int := 500

/-- Function `wait_for_clients` over a trace of poll observations.  `none` means
the modelled trace ended with the loop still polling. -/
def wait_for_clients (required : List String) (deadline : Int) (attempt : Nat) :
    List PollObs → Option PollOutcome
  | [] => none
  | obs :: rest =>
      if obs.respDelayMs > per_call_timeout_ms then
        some (.respTimeout ("clients-" ++ toString (attempt + 1)))
      else if required.all (fun c => obs.clients.contains c) then
        some (.ready obs.clients)
      else if obs.checkTime ≥ deadline then some (.overallTimeout obs.clients)
      else wait_for_clients required deadline (attempt + 1) rest

example :
    wait_for_clients ["x", "y"] 45000 0
      [⟨40, 1000, ["x"]⟩, ⟨40, 46000, ["x"]⟩] =
    some (.overallTimeout ["x"]) := by decide
example :
    wait_for_clients ["x", "y"] 45000 0 [⟨40, 1000, ["y", "x"]⟩] =
    some (.ready ["y", "x"]) := by decide

/-!
## Policy-bundle signer (`scripts/security/rotate-policy-bundle.py`)

`canonicalize` recursively sorts object keys; `sign_bundle` serializes the
canonical form compactly and attaches the HMAC-SHA256 hex digest.  The
digest itself is computed by the Python standard library (`hmac`,
`hashlib`), outside this repository, so it enters the model as an
arbitrary function argument `hmacSha256Hex : key → payload → digest`:
everything proved below holds for the real digest in particular.
-/

/-- Field comparison used by `sorted(value.keys())`: by key. -/
def fieldLe (a b : String × JValue) : Bool := pyStrLe a.1 b.1

/-- Function `canonicalize` (rotate-policy-bundle.py lines 12-17). -/
def canonicalize : JValue → JValue
  | .null => .null
  | .bool b => .bool b
  | .str s => .str s
  | .num n => .num n
  | .arr xs => .arr (xs.attach.map (fun x => canonicalize x.1))
  | .obj fs =>
      .obj (((fs.mergeSort fieldLe).attach).map (fun kv => (kv.1.1, canonicalize kv.1.2)))
decreasing_by
  · have h := List.sizeOf_lt_of_mem x.2
    simp only [JValue.arr.sizeOf_spec]
    omega
  · have h := kv.2
    rw [List.mem_mergeSort] at h
    have h1 := List.sizeOf_lt_of_mem h
    have h2 : sizeOf kv.1.2 < sizeOf kv.1 := by
      obtain ⟨k, v⟩ := kv.1
      simp only [Prod.mk.sizeOf_spec]
      omega
    simp only [JValue.obj.sizeOf_spec]
    omega

def joinComma : List String → String
  | [] => ""
  | [s] => s
  | s :: rest => s ++ "," ++ joinComma rest

def jsonEscapeChar (c : Char) : String :=
  if c = '\"' then "\\\"" else if c = '\\' then "\\\\" else String.singleton c

def jsonQuote (s : String) : String :=
  "\"" ++ String.join (s.data.map jsonEscapeChar) ++ "\""

/-- Compact `json.dumps(..., separators=(",", ":"), ensure_ascii=False)`:
compact serialization in field order. -/
def serializeJson : JValue → String
  | .null => "null"
  | .bool true => "true"
  | .bool false => "false"
  | .str s => jsonQuote s
  | .num n => toString n
  | .arr xs => "[" ++ joinComma (xs.attach.map (fun x => serializeJson x.1)) ++ "]"
  | .obj fs =>
      "\x7b" ++
        joinComma (fs.attach.map (fun kv => jsonQuote kv.1.1 ++ ":" ++ serializeJson kv.1.2))
        ++ "\x7d"
decreasing_by
  · have h := List.sizeOf_lt_of_mem x.2
    simp only [JValue.arr.sizeOf_spec]
    omega
  · have h1 := List.sizeOf_lt_of_mem kv.2
    have h2 : sizeOf kv.1.2 < sizeOf kv.1 := by
      obtain ⟨k, v⟩ := kv.1
      simp only [Prod.mk.sizeOf_spec]
      omega
    simp only [JValue.obj.sizeOf_spec]
    omega

/-- Assignment `signed = dict(unsigned); signed["signature"] = sig` — dict copy plus
item assignment (overwrite keeps position, new key appended). -/
def jSetField (fs : List (String × JValue)) (k : String) (v : JValue) :
    List (String × JValue) :=
  if fs.any (fun p => p.1 = k) then fs.map (fun p => if p.1 = k then (k, v) else p)
  else fs ++ [(k, v)]

/-- The digest `sign_bundle` attaches. -/
def bundle_signature (hmacSha256Hex : String → String → String)
    (unsigned : List (String × JValue)) (key : String) : String :=
  hmacSha256Hex key (serializeJson (canonicalize (.obj unsigned)))

/-- Function `sign_bundle` (rotate-policy-bundle.py lines 20-26). -/
def sign_bundle (hmacSha256Hex : String → String → String)
    (unsigned : List (String × JValue)) (key : String) : List (String × JValue) :=
  jSetField unsigned "signature" (.str (bundle_signature hmacSha256Hex unsigned key))

set_option maxRecDepth 4096 in
unseal List.merge List.mergeSort canonicalize in
example :
    canonicalize (.obj [("b", .num 1), ("a", .obj [("z", .null), ("y", .num 2)])]) =
    .obj [("a", .obj [("y", .num 2), ("z", .null)]), ("b", .num 1)] := by decide

/-!
## Helper lemmas about the association-list dictionary operations
-/

theorem hasKey_iff {fs : List (String × String)} {k : String} :
    hasKey fs k = true ↔ ∃ v, (k, v) ∈ fs := by
  simp only [hasKey, List.any_eq_true, decide_eq_true_eq]
  constructor
  · rintro ⟨⟨k2, v⟩, hm, he⟩
    subst he
    exact ⟨v, hm⟩
  · rintro ⟨v, hm⟩
    exact ⟨(k, v), hm, rfl⟩

theorem hasKey_eq_mem_keys {fs : List (String × String)} {k : String} :
    hasKey fs k = true ↔ k ∈ fs.map Prod.fst := by
  rw [hasKey_iff]
  simp only [List.mem_map]
  constructor
  · rintro ⟨v, hm⟩
    exact ⟨(k, v), hm, rfl⟩
  · rintro ⟨⟨k2, v⟩, hm, he⟩
    subst he
    exact ⟨v, hm⟩

theorem hasKey_dropKey {p : List (String × String)} {k id : String} :
    hasKey (dropKey p k) id = (hasKey p id && !(id == k)) := by
  induction p with
  | nil => simp [hasKey, dropKey]
  | cons a as ih =>
      by_cases hak : a.1 = k
      · have h1 : dropKey (a :: as) k = dropKey as k := by
          simp [dropKey, hak]
        rw [h1, ih]
        by_cases hid : a.1 = id
        · have : id = k := by rw [← hid, hak]
          subst this
          simp [hasKey, hak]
        · simp [hasKey, hid]
      · have h1 : dropKey (a :: as) k = a :: dropKey as k := by
          simp [dropKey, hak]
        rw [h1]
        by_cases hid : a.1 = id
        · have hidk : (id == k) = false := by
            subst hid
            simp [hak]
          simp [hasKey, hid, hidk]
        · simp only [hasKey, List.any_cons] at ih ⊢
          rw [ih]
          simp [hid]

theorem hasKey_map_overwrite {s : List (String × String)} {k v id : String} :
    hasKey (s.map (fun p => if p.1 = k then (k, v) else p)) id = hasKey s id := by
  induction s with
  | nil => rfl
  | cons a as ih =>
      simp only [List.map_cons, hasKey, List.any_cons] at ih ⊢
      rw [ih]
      by_cases hak : a.1 = k
      · simp [hak]
      · simp only [if_neg hak]

theorem hasKey_dictSetS {s : List (String × String)} {k v id : String} :
    hasKey (dictSetS s k v) id = (hasKey s id || id == k) := by
  unfold dictSetS
  by_cases hk : hasKey s k = true
  · rw [if_pos hk, hasKey_map_overwrite]
    by_cases h : id = k
    · subst h
      simp [hk]
    · simp [h]
  · rw [if_neg hk]
    by_cases h : id = k
    · subst h
      simp [hasKey, eq_comm]
    · simp [hasKey, h, Ne.symm h]

/-!
## Claim C5 — scenario validation
-/

theorem parse_scenario_item_valid {idx : Nat} {ea : String} {item : JValue}
    {p : String × String} (h : parse_scenario_item idx ea item = .ok p) :
    p.2 ∈ validActions := by
  cases item with
  | obj fs =>
      simp only [parse_scenario_item] at h
      split at h
      · exact absurd h (by simp)
      · split at h
        · next hc =>
            cases h
            simpa [List.elem_iff] using hc
        · exact absurd h (by simp)
  | null => simp [parse_scenario_item] at h
  | bool b => simp [parse_scenario_item] at h
  | str s => simp [parse_scenario_item] at h
  | num n => simp [parse_scenario_item] at h
  | arr xs => simp [parse_scenario_item] at h

theorem parse_scenario_items_valid :
    ∀ (items : List JValue) (idx : Nat) (ea : String) (es : List (String × String)),
    parse_scenario_items ea idx items = .ok es →
    ∀ p ∈ es, p.2 ∈ validActions := by
  intro items
  induction items with
  | nil =>
      intro idx ea es h
      simp only [parse_scenario_items, Except.ok.injEq] at h
      subst h
      simp
  | cons item rest ih =>
      intro idx ea es h
      simp only [parse_scenario_items] at h
      cases he : parse_scenario_item idx ea item with
      | error e => rw [he] at h; exact absurd h (by simp)
      | ok p =>
          rw [he] at h
          cases hr : parse_scenario_items ea (idx + 1) rest with
          | error e => rw [hr] at h; exact absurd h (by simp)
          | ok es2 =>
              rw [hr] at h
              simp only [Except.ok.injEq] at h
              subst h
              intro q hq
              rcases List.mem_cons.mp hq with hq | hq
              · subst hq
                exact parse_scenario_item_valid he
              · exact ih (idx + 1) ea es2 hr q hq

/-- Claim C5, counterexample: when no scenario is supplied, the default
single-expectation path performs no validation at all — an expected action
outside \x7ballow, review, block\x7d (here the environment value "bogus")
is accepted without a configuration error, refuting the claim that the
collector fails for every configuration input with an invalid action. -/
theorem c5_counterexample_default_path_unvalidated :
    parse_scenario none "parity-action-1" "bogus" = .ok [("parity-action-1", "bogus")] ∧
    "bogus" ∉ validActions := by
  constructor
  · rfl
  · decide

/-- Claim C5 (amended): for an explicitly supplied scenario array the
parser fails with a configuration error on an empty list and on any entry
whose expected action resolves outside \x7ballow, review, block\x7d — so
parsing success implies a non-empty expectation list with only valid
actions.  The default path, taken when no scenario is supplied, instead
synthesizes exactly one expectation carrying the environment-default
action without validating it. -/
theorem c5_scenario_validation :
    (∀ (items : List JValue) (aid ea : String) (result : List (String × String)),
        parse_scenario (some (.arr items)) aid ea = .ok result →
        result ≠ [] ∧ ∀ p ∈ result, p.2 ∈ validActions) ∧
    (∀ aid ea : String,
        parse_scenario (some (.arr [])) aid ea =
          .error "PARITY_SCENARIO_JSON must contain at least one event") ∧
    (∀ aid ea : String, parse_scenario none aid ea = .ok [(aid, ea)]) := by
  refine ⟨?_, fun aid ea => rfl, fun aid ea => rfl⟩
  intro items aid ea result h
  simp only [parse_scenario] at h
  cases hp : parse_scenario_items ea 0 items with
  | error e => rw [hp] at h; exact absurd h (by simp)
  | ok es =>
      rw [hp] at h
      dsimp only at h
      split at h
      · exact absurd h (by simp)
      · next he =>
          simp only [Except.ok.injEq] at h
          subst h
          exact ⟨by simpa [List.isEmpty_iff] using he,
            parse_scenario_items_valid items 0 ea _ hp⟩

/-- Witness for C5's amended theorem at a concrete scenario. -/
theorem c5_scenario_validation_witness :
    [("a1", "allow")] ≠ ([] : List (String × String)) ∧
    ∀ p ∈ [("a1", "allow")], p.2 ∈ validActions :=
  c5_scenario_validation.1
    [.obj [("id", .str "a1"), ("expectedAction", .str "Allow")]]
    "parity-action-1" "block" [("a1", "allow")] (by decide)

/-!
## Claims C3 and C10 — connect authentication
-/

/-- Claim C3: with a non-empty configured token and a mismatching supplied
token, `connect` replies with the failure response carrying error code 401,
closes the connection with the distinguished non-normal close code 4001,
leaves the registry exactly unchanged, and any client name absent from the
registry snapshot before the attempt is still absent afterwards. -/
theorem c3_connect_reject (token_cfg : String) (reg : Registry) (ws : ConnId)
    (fs : List (String × JValue))
    (hne : token_cfg ≠ "")
    (hm : methodOf fs = "connect")
    (hmm : suppliedToken fs ≠ .str token_cfg) :
    handle_request token_cfg reg ws fs =
      { sends := [make_response (reqIdOf fs) false none
          (some (.obj [("code", .num 401), ("message", .str "invalid gateway token")]))],
        close := some 4001, registry := reg } ∧
    (∀ name, name ∉ known_clients reg →
        name ∉ known_clients (handle_request token_cfg reg ws fs).registry) := by
  have heq : handle_request token_cfg reg ws fs =
      { sends := [make_response (reqIdOf fs) false none
          (some (.obj [("code", .num 401), ("message", .str "invalid gateway token")]))],
        close := some 4001, registry := reg } := by
    unfold handle_request
    rw [hm]
    rw [if_pos rfl, if_pos ⟨hne, hmm⟩]
  refine ⟨heq, ?_⟩
  intro name hn
  rw [heq]
  exact hn

/-- Witness for C3 at a concrete rejected connect. -/
theorem c3_connect_reject_witness :
    handle_request "secret" [(7, ⟨"other"⟩)] 3 (connectFrame "mallory" "wrong") =
      { sends := [make_response "connect-mallory" false none
          (some (.obj [("code", .num 401), ("message", .str "invalid gateway token")]))],
        close := some 4001, registry := [(7, ⟨"other"⟩)] } ∧
    (∀ name, name ∉ known_clients [(7, ⟨"other"⟩)] →
        name ∉ known_clients
          (handle_request "secret" [(7, ⟨"other"⟩)] 3
            (connectFrame "mallory" "wrong")).registry) := by
  have h := c3_connect_reject "secret" [(7, ⟨"other"⟩)] 3
    (connectFrame "mallory" "wrong") (by decide) (by decide) (by decide)
  simpa using h

/-- Claim C10: with the empty configured token, `connect` succeeds for
every request frame — whatever the `auth` field holds (missing, non-dict
or arbitrary) — registering the connection under `params.client`
(`connectClientName`, which falls back to the placeholder
"unknown-client" whenever `params.client` is absent or falsy); and the
401 failure branch, the only path that closes the connection, is
reachable only when the configured token is non-empty. -/
theorem c10_empty_token_connect :
    (∀ (reg : Registry) (ws : ConnId) (fs : List (String × JValue)),
        methodOf fs = "connect" →
        handle_request "" reg ws fs =
          { sends := [make_response (reqIdOf fs) true
              (some (.obj [("ok", .bool true),
                           ("client", .str (connectClientName fs))])) none],
            close := none,
            registry := register reg ws (connectClientName fs) }) ∧
    (∀ (fs : List (String × JValue)),
        pyTruthy ((jlookup (paramsOf fs) "client").getD .null) = false →
        connectClientName fs = "unknown-client") ∧
    (∀ (token_cfg : String) (reg : Registry) (ws : ConnId)
        (fs : List (String × JValue)),
        (handle_request token_cfg reg ws fs).close ≠ none → token_cfg ≠ "") := by
  have hnone : ∀ (reg : Registry) (ws : ConnId) (fs : List (String × JValue)),
      (handle_request "" reg ws fs).close = none := by
    intro reg ws fs
    simp only [handle_request]
    by_cases hm : methodOf fs = "connect"
    · rw [if_pos hm, if_neg (by rintro ⟨hc, _⟩; exact hc rfl)]
    · rw [if_neg hm]
      by_cases hh : methodOf fs = "health" ∨ methodOf fs = "status" ∨
          methodOf fs = "parity.clients"
      · rw [if_pos hh]
      · rw [if_neg hh]
  refine ⟨?_, ?_, ?_⟩
  · intro reg ws fs hm
    unfold handle_request
    rw [hm, if_pos rfl]
    rw [if_neg]
    rintro ⟨hc, _⟩
    exact hc rfl
  · intro fs hf
    unfold connectClientName pyOrJ
    rw [hf]
    rfl
  · intro token_cfg reg ws fs hclose he
    subst he
    exact hclose (hnone reg ws fs)

/-- Witness for C10 at a concrete connect with a non-dict auth field. -/
theorem c10_empty_token_connect_witness :
    handle_request "" [] 0
      [("type", .str "req"), ("id", .str "connect-a"), ("method", .str "connect"),
       ("params", .obj [("auth", .num 5)])] =
      { sends := [make_response "connect-a" true
          (some (.obj [("ok", .bool true), ("client", .str "unknown-client")])) none],
        close := none,
        registry := [(0, ⟨"unknown-client"⟩)] } := by
  have h := c10_empty_token_connect.1 [] 0
    [("type", .str "req"), ("id", .str "connect-a"), ("method", .str "connect"),
     ("params", .obj [("auth", .num 5)])] (by decide)
  rw [h]
  decide

/-!
## Claim C4 — event broadcast
-/

theorem mem_foldl_unregister (l : List ConnId) :
    ∀ (reg : Registry) (p : ConnId × ClientState),
    p ∈ l.foldl (fun r t => unregister r t) reg ↔ p ∈ reg ∧ p.1 ∉ l := by
  induction l with
  | nil => intro reg p; simp
  | cons t ts ih =>
      intro reg p
      simp only [List.foldl_cons]
      rw [ih]
      unfold unregister
      simp only [List.mem_filter, List.mem_cons, decide_eq_true_eq]
      constructor
      · rintro ⟨⟨hp, hne⟩, hnin⟩
        refine ⟨hp, ?_⟩
        push_neg
        exact ⟨by simpa using hne, hnin⟩
      · rintro ⟨hp, hn⟩
        push_neg at hn
        exact ⟨⟨hp, by simpa using hn.1⟩, hn.2⟩

/-- Claim C4: for an inbound event frame the broker delivers the frame
verbatim to exactly the currently-registered connections other than the
sender whose send succeeds — never to the sender; a target whose send
fails is silently unregistered (only failing targets are removed), and
its failure does not prevent delivery to the remaining targets (they all
still appear in the delivery list); the operation is total, so no error
reaches the broadcaster. -/
theorem c4_broadcast (reg : Registry) (frame : JValue) (sender : ConnId)
    (sendFails : ConnId → Bool) :
    ((broadcast reg frame (some sender) sendFails).1 =
        (((reg.map Prod.fst).filter (fun t => t ≠ sender)).filter
          (fun t => !sendFails t)).map (fun t => (t, frame))) ∧
    (∀ m ∈ (broadcast reg frame (some sender) sendFails).1, m.1 ≠ sender) ∧
    (∀ m ∈ (broadcast reg frame (some sender) sendFails).1, m.2 = frame) ∧
    (∀ t, t ∈ reg.map Prod.fst → t ≠ sender → ¬ sendFails t = true →
        (t, frame) ∈ (broadcast reg frame (some sender) sendFails).1) ∧
    (∀ p, p ∈ (broadcast reg frame (some sender) sendFails).2 ↔
        p ∈ reg ∧ ¬ (p.1 ≠ sender ∧ sendFails p.1 = true)) := by
  have hfe : ∀ t : ConnId, ((some sender ≠ some t) : Prop) ↔ t ≠ sender := by
    intro t
    constructor
    · intro h he
      exact h (by rw [he])
    · intro h he
      exact h (by injection he with h2; exact h2.symm)
  have htargets : (reg.map Prod.fst).filter (fun t => decide (some sender ≠ some t)) =
      (reg.map Prod.fst).filter (fun t => decide (t ≠ sender)) := by
    apply List.filter_congr
    intro t _
    simp only [decide_eq_decide]
    exact hfe t
  constructor
  · simp only [broadcast, htargets]
  constructor
  · intro m hm
    simp only [broadcast, htargets] at hm
    simp only [List.mem_map, List.mem_filter, decide_eq_true_eq] at hm
    obtain ⟨t, ⟨⟨_, ht⟩, _⟩, he⟩ := hm
    subst he
    exact ht
  constructor
  · intro m hm
    simp only [broadcast] at hm
    simp only [List.mem_map] at hm
    obtain ⟨t, _, he⟩ := hm
    subst he
    rfl
  constructor
  · intro t ht hne hfail
    simp only [broadcast, htargets]
    apply List.mem_map.mpr
    refine ⟨t, ?_, rfl⟩
    apply List.mem_filter.mpr
    refine ⟨?_, by simpa using hfail⟩
    apply List.mem_filter.mpr
    exact ⟨ht, by simpa using hne⟩
  · intro p
    simp only [broadcast]
    rw [mem_foldl_unregister]
    constructor
    · rintro ⟨hp, hn⟩
      refine ⟨hp, ?_⟩
      rintro ⟨hne, hfail⟩
      apply hn
      apply List.mem_filter.mpr
      refine ⟨?_, hfail⟩
      apply List.mem_filter.mpr
      refine ⟨List.mem_map.mpr ⟨p, hp, rfl⟩, ?_⟩
      simp only [decide_eq_true_eq]
      exact (hfe p.1).mpr hne
    · rintro ⟨hp, hn⟩
      refine ⟨hp, ?_⟩
      intro hin
      apply hn
      obtain ⟨hin1, hfail⟩ := List.mem_filter.mp hin
      obtain ⟨hin2, hne⟩ := List.mem_filter.mp hin1
      simp only [decide_eq_true_eq] at hne
      exact ⟨(hfe p.1).mp hne, hfail⟩

/-- Witness for C4 at a concrete registry with one failing target. -/
theorem c4_broadcast_witness :
    (∀ m ∈ (broadcast [(1, ⟨"a"⟩), (2, ⟨"b"⟩), (3, ⟨"c"⟩)] (.str "ev") (some 1)
        (fun t => t = 2)).1, m.1 ≠ 1) ∧
    ((3, JValue.str "ev") ∈ (broadcast [(1, ⟨"a"⟩), (2, ⟨"b"⟩), (3, ⟨"c"⟩)]
        (.str "ev") (some 1) (fun t => t = 2)).1) ∧
    ((2, ⟨"b"⟩) ∉ (broadcast [(1, ⟨"a"⟩), (2, ⟨"b"⟩), (3, ⟨"c"⟩)]
        (.str "ev") (some 1) (fun t => t = 2)).2) := by
  have h := c4_broadcast [(1, ⟨"a"⟩), (2, ⟨"b"⟩), (3, ⟨"c"⟩)] (.str "ev") 1
    (fun t => t = 2)
  refine ⟨h.2.1, ?_, ?_⟩
  · exact h.2.2.2.1 3 (by decide) (by decide) (by decide)
  · intro hin
    have := (h.2.2.2.2 (2, ⟨"b"⟩)).mp hin
    exact this.2 ⟨by decide, by decide⟩

/-!
## Claim C9 — authentication is enforced only inside `connect`
-/

/-- Claim C9: the broker checks authentication and registration nowhere
outside the `connect` handler.  A connection that never performed a
connect handshake (hence is absent from the registry): (1) can send an
event frame, which is broadcast to every currently-registered connection
(all of them, since the sender is not registered, minus only targets
whose send fails); (2) receives a successful response to
`health`/`status`/`parity.clients` requests; and (3) the dispatch of any
frame other than a connect request is entirely independent of the
configured token. -/
theorem c9_no_auth_outside_connect :
    (∀ (token_cfg : String) (reg : Registry) (ws : ConnId)
        (sendFails : ConnId → Bool) (fs : List (String × JValue)),
        ws ∉ reg.map Prod.fst →
        frameTypeOf fs = "event" →
        (process_frame token_cfg reg ws sendFails (.obj fs)).broadcastSends =
          ((reg.map Prod.fst).filter (fun t => !sendFails t)).map
            (fun t => (t, JValue.obj fs))) ∧
    (∀ (token_cfg : String) (reg : Registry) (ws : ConnId)
        (sendFails : ConnId → Bool) (fs : List (String × JValue)),
        frameTypeOf fs = "req" →
        (methodOf fs = "health" ∨ methodOf fs = "status" ∨
          methodOf fs = "parity.clients") →
        process_frame token_cfg reg ws sendFails (.obj fs) =
          { senderSends := [make_response (reqIdOf fs) true
              (some (.obj [("status", .str "ok"),
                           ("clientCount", .num (known_clients reg).length),
                           ("clients", .arr ((known_clients reg).map .str))])) none],
            broadcastSends := [], registry := reg, close := none }) ∧
    (∀ (token_cfg token_cfg2 : String) (reg : Registry) (ws : ConnId)
        (sendFails : ConnId → Bool) (frame : JValue),
        (∀ fs, frame = .obj fs →
            ¬ (frameTypeOf fs = "req" ∧ methodOf fs = "connect")) →
        process_frame token_cfg reg ws sendFails frame =
          process_frame token_cfg2 reg ws sendFails frame) := by
  refine ⟨?_, ?_, ?_⟩
  · intro token_cfg reg ws sendFails fs hws hft
    have h1 : process_frame token_cfg reg ws sendFails (.obj fs) =
        { senderSends := [],
          broadcastSends := (broadcast reg (.obj fs) (some ws) sendFails).1,
          registry := (broadcast reg (.obj fs) (some ws) sendFails).2,
          close := none } := by
      simp [process_frame, hft]
    rw [h1]
    have htg : (reg.map Prod.fst).filter (fun t => decide (some ws ≠ some t)) =
        reg.map Prod.fst := by
      apply List.filter_eq_self.mpr
      intro t ht
      simp only [decide_eq_true_eq]
      intro he
      injection he with he2
      exact hws (he2 ▸ ht)
    simp only [broadcast, htg]
  · intro token_cfg reg ws sendFails fs hft hm
    have h1 : process_frame token_cfg reg ws sendFails (.obj fs) =
        { senderSends := (handle_request token_cfg reg ws fs).sends,
          broadcastSends := [],
          registry := (handle_request token_cfg reg ws fs).registry,
          close := (handle_request token_cfg reg ws fs).close } := by
      simp [process_frame, hft]
    rw [h1]
    have hmc : methodOf fs ≠ "connect" := by
      rcases hm with hm | hm | hm <;> rw [hm] <;> decide
    have h2 : handle_request token_cfg reg ws fs =
        { sends := [make_response (reqIdOf fs) true
            (some (.obj [("status", .str "ok"),
                         ("clientCount", .num (known_clients reg).length),
                         ("clients", .arr ((known_clients reg).map .str))])) none],
          close := none, registry := reg } := by
      unfold handle_request
      rw [if_neg hmc, if_pos hm]
    rw [h2]
  · intro token_cfg token_cfg2 reg ws sendFails frame hnc
    cases frame with
    | obj fs =>
        simp only [process_frame]
        by_cases hft : frameTypeOf fs = "req"
        · rw [if_pos hft, if_pos hft]
          have hm : methodOf fs ≠ "connect" := by
            intro hc
            exact hnc fs rfl ⟨hft, hc⟩
          unfold handle_request
          rw [if_neg hm, if_neg hm]
        · rw [if_neg hft, if_neg hft]
    | null => rfl
    | bool b => rfl
    | str s => rfl
    | num n => rfl
    | arr xs => rfl

/-- Witness for C9: an unregistered sender's event reaches both
registered connections. -/
theorem c9_no_auth_outside_connect_witness :
    (process_frame "secret" [(1, ⟨"a"⟩), (2, ⟨"b"⟩)] 9 (fun _ => false)
        (.obj [("type", .str "event"), ("event", .str "x.message")])).broadcastSends =
      (([(1, (⟨"a"⟩ : ClientState)), (2, ⟨"b"⟩)].map Prod.fst).filter
          (fun t => !(fun (_ : ConnId) => false) t)).map
        (fun t => (t, JValue.obj [("type", .str "event"), ("event", .str "x.message")])) :=
  c9_no_auth_outside_connect.1 "secret" [(1, ⟨"a"⟩), (2, ⟨"b"⟩)] 9 (fun _ => false)
    [("type", .str "event"), ("event", .str "x.message")] (by decide) (by decide)

/-!
## Claim C6 — readiness poller deadline behaviour
-/

/-- Claim C6: with required clients x and y and a registry snapshot only
ever reporting x, the readiness poller (1) never raises its overall
timeout before the deadline — a timeout can fire only at a deadline check
at-or-after the deadline; (2) fails at the first deadline check
at-or-after the deadline, naming the last-seen client list in the
diagnostic; and (3) each poll's own response timeout is judged against
the fixed per-call constant (5.0 s), independently of the overall
deadline and of the poll interval. -/
theorem c6_poller_deadline :
    (∀ (required : List String) (deadline : Int) (attempt : Nat)
        (trace : List PollObs) (cs : List String),
        (∀ obs ∈ trace, obs.checkTime < deadline) →
        wait_for_clients required deadline attempt trace ≠
          some (.overallTimeout cs)) ∧
    (∀ (deadline : Int) (attempt : Nat) (pre : List PollObs) (d t : Int)
        (post : List PollObs),
        (∀ obs ∈ pre, obs.checkTime < deadline) →
        (∀ obs ∈ pre, obs.clients = ["x"]) →
        (∀ obs ∈ pre, obs.respDelayMs ≤ per_call_timeout_ms) →
        d ≤ per_call_timeout_ms → t ≥ deadline →
        wait_for_clients ["x", "y"] deadline attempt
          (pre ++ ⟨d, t, ["x"]⟩ :: post) = some (.overallTimeout ["x"])) ∧
    (∀ (required : List String) (deadline : Int) (attempt : Nat)
        (obs : PollObs) (rest : List PollObs),
        obs.respDelayMs > per_call_timeout_ms →
        wait_for_clients required deadline attempt (obs :: rest) =
          some (.respTimeout ("clients-" ++ toString (attempt + 1)))) := by
  refine ⟨?_, ?_, ?_⟩
  · intro required deadline attempt trace
    induction trace generalizing attempt with
    | nil => intro cs _ h; simp [wait_for_clients] at h
    | cons obs rest ih =>
        intro cs hlt h
        simp only [wait_for_clients] at h
        split at h
        · simp at h
        · split at h
          · simp at h
          · split at h
            · simp only [Option.some.injEq, PollOutcome.overallTimeout.injEq] at h
              next hge _ =>
                exact absurd (hlt obs (by simp)) (by omega)
            · exact ih (attempt + 1) cs (fun o ho => hlt o (by simp [ho])) h
  · intro deadline attempt pre d t post
    induction pre generalizing attempt with
    | nil =>
        intro _ _ _ hd ht
        simp only [List.nil_append, wait_for_clients]
        rw [if_neg (by simp; omega), if_neg (by decide), if_pos (by simpa using ht)]
    | cons obs rest ih =>
        intro hlt hcl hdl hd ht
        simp only [List.cons_append, wait_for_clients]
        have h1 : obs.clients = ["x"] := hcl obs (by simp)
        rw [if_neg ?hdelay, if_neg ?hsub, if_neg ?hdead]
        · exact ih (attempt + 1) (fun o ho => hlt o (by simp [ho]))
            (fun o ho => hcl o (by simp [ho])) (fun o ho => hdl o (by simp [ho])) hd ht
        case hdelay =>
          have := hdl obs (by simp)
          simp only [not_lt]
          omega
        case hsub =>
          rw [h1]
          decide
        case hdead =>
          have := hlt obs (by simp)
          omega
  · intro required deadline attempt obs rest h
    simp only [wait_for_clients]
    rw [if_pos (by simpa using h)]

/-- Witness for C6: snapshots only ever ["x"], deadline reached at the
second poll. -/
theorem c6_poller_deadline_witness :
    wait_for_clients ["x", "y"] 45000 0
      ([⟨40, 1000, ["x"]⟩] ++ ⟨40, 46000, ["x"]⟩ :: []) =
      some (.overallTimeout ["x"]) :=
  c6_poller_deadline.2.1 45000 0 [⟨40, 1000, ["x"]⟩] 40 46000 []
    (by decide) (by decide) (by decide) (by decide) (by decide)

/-!
## Claim C2 — duplicate detection and the grace window
-/

theorem graceLoop_ok_iff (seen : List (String × String)) (frames : List JValue) :
    graceLoop seen frames = .ok () ↔
      ∀ d ∈ frames.filterMap extract_decision, hasKey seen d.1 = false := by
  induction frames with
  | nil => simp [graceLoop]
  | cons f rest ih =>
      simp only [graceLoop]
      cases he : extract_decision f with
      | none =>
          rw [ih]
          simp only [List.filterMap_cons, he]
      | some d =>
          obtain ⟨rid, act⟩ := d
          simp only [List.filterMap_cons, he]
          by_cases hk : hasKey seen rid = true
          · rw [if_pos hk]
            constructor
            · intro h
              exact absurd h (by simp)
            · intro h
              have := h (rid, act) (by simp)
              simp [hk] at this
          · rw [if_neg hk, ih]
            constructor
            · intro h d hd
              rcases List.mem_cons.mp hd with hd | hd
              · subst hd
                simpa using hk
              · exact h d hd
            · intro h d hd
              exact h d (by simp [hd])

theorem graceLoop_error_duplicate (seen : List (String × String))
    (frames : List JValue) (e : CollectorError)
    (h : graceLoop seen frames = .error e) :
    ∃ rid, e = .duplicateDecision rid ∧ hasKey seen rid = true := by
  induction frames with
  | nil => simp [graceLoop] at h
  | cons f rest ih =>
      simp only [graceLoop] at h
      cases he : extract_decision f with
      | none =>
          rw [he] at h
          exact ih h
      | some d =>
          obtain ⟨rid, act⟩ := d
          rw [he] at h
          dsimp only at h
          by_cases hk : hasKey seen rid = true
          · rw [if_pos hk] at h
            simp only [Except.error.injEq] at h
            exact ⟨rid, h.symm, hk⟩
          · rw [if_neg hk] at h
            exact ih h

/-- Claim C2: (1) with the single expectation `(rid, "block")` and its
well-formed decision delivered twice, the collector raises the
duplicate-decision error on the second delivery, even though `rid` was
already satisfied when it arrives — the first delivery completes the
pending set and the second is read inside the post-completion grace
window; (2) the grace window succeeds exactly when no decision event read
in it carries a request id already in the seen set (all other events are
ignored, and the window elapsing with no event at all is success, the
`frames = []` case of the iff); (3) the only error the grace window can
raise is the duplicate-decision error, for an id already in the seen
set. -/
theorem c2_duplicate_after_completion :
    (∀ (f : JValue) (rid : String), extract_decision f = some (rid, "block") →
        wait_for_decisions [(rid, "block")] [f, f] =
          .error (.duplicateDecision rid)) ∧
    (∀ (seen : List (String × String)) (frames : List JValue),
        graceLoop seen frames = .ok () ↔
          ∀ d ∈ frames.filterMap extract_decision, hasKey seen d.1 = false) ∧
    (∀ (seen : List (String × String)) (frames : List JValue) (e : CollectorError),
        graceLoop seen frames = .error e →
        ∃ rid, e = .duplicateDecision rid ∧ hasKey seen rid = true) := by
  refine ⟨?_, graceLoop_ok_iff, graceLoop_error_duplicate⟩
  intro f rid hf
  have hdict : toDictLast [(rid, "block")] = [(rid, "block")] := by
    simp [toDictLast, dictSetS, hasKey]
  have hstep : collectStep [(rid, "block")] [] f =
      .ok (dropKey [(rid, "block")] rid, dictSetS [] rid "block") := by
    simp only [collectStep, hf]
    rw [if_neg (by simp [hasKey])]
    have hfind : List.find? (fun p => decide (p.1 = rid)) [(rid, "block")] =
        some (rid, "block") := by
      simp [List.find?]
    rw [hfind]
    simp
  have hdrop : dropKey [(rid, "block")] rid = [] := by
    simp [dropKey]
  have hset : dictSetS [] rid "block" = [(rid, "block")] := by
    simp [dictSetS, hasKey]
  simp only [wait_for_decisions, hdict]
  have hloop : collectLoop [(rid, "block")] [] [f, f] =
      .ok ([(rid, "block")], [f]) := by
    rw [collectLoop.eq_def]
    rw [if_neg (by simp)]
    dsimp only
    rw [hstep, hdrop, hset]
    dsimp only
    rw [collectLoop.eq_def]
    rw [if_pos (by simp)]
  rw [hloop]
  dsimp only
  have hgrace : graceLoop [(rid, "block")] [f] = .error (.duplicateDecision rid) := by
    simp only [graceLoop, hf]
    rw [if_pos (by simp [hasKey])]
  rw [hgrace]

/-- Witness for C2 at the concrete decision frame for id "A". -/
theorem c2_duplicate_after_completion_witness :
    wait_for_decisions [("A", "block")] [decisionFrame "A" "block", decisionFrame "A" "block"] =
      .error (.duplicateDecision "A") :=
  c2_duplicate_after_completion.1 (decisionFrame "A" "block") "A" (by decide)

/-!
## Claim C7 — pending/seen disjointness invariant
-/

/-- Claim C7: every successful processing step of the collector loop
preserves the invariant that the pending set and the seen set are
disjoint by key; the pending set only ever shrinks (a removed id can
never re-enter), the seen set only ever grows, and an id leaves the
pending set exactly when its matching decision is recorded in the seen
set — so together with disjointness each request id leaves the pending
set at most once, at the moment it enters the seen set. -/
theorem c7_pending_seen_invariant
    (pending seen : List (String × String)) (frame : JValue)
    (pending2 seen2 : List (String × String))
    (hdisj : ∀ id, hasKey seen id = true → hasKey pending id = false)
    (hstep : collectStep pending seen frame = .ok (pending2, seen2)) :
    (∀ id, hasKey seen2 id = true → hasKey pending2 id = false) ∧
    (∀ id, hasKey pending2 id = true → hasKey pending id = true) ∧
    (∀ id, hasKey seen id = true → hasKey seen2 id = true) ∧
    (∀ id, hasKey pending id = true → hasKey pending2 id = false →
        hasKey seen2 id = true ∧ hasKey seen id = false) := by
  unfold collectStep at hstep
  cases he : extract_decision frame with
  | none =>
      rw [he] at hstep
      simp only [Except.ok.injEq, Prod.mk.injEq] at hstep
      obtain ⟨hp, hs⟩ := hstep
      subst hp
      subst hs
      refine ⟨hdisj, fun id h => h, fun id h => h, fun id h1 h2 => ?_⟩
      rw [h1] at h2
      exact absurd h2 (by simp)
  | some d =>
      obtain ⟨rid, act⟩ := d
      rw [he] at hstep
      dsimp only at hstep
      by_cases hk : hasKey seen rid = true
      · rw [if_pos hk] at hstep
        exact absurd hstep (by simp)
      · rw [if_neg hk] at hstep
        cases hfind : pending.find? (fun p => p.1 = rid) with
        | none =>
            rw [hfind] at hstep
            simp only [Except.ok.injEq, Prod.mk.injEq] at hstep
            obtain ⟨hp, hs⟩ := hstep
            subst hp
            subst hs
            refine ⟨hdisj, fun id h => h, fun id h => h, fun id h1 h2 => ?_⟩
            rw [h1] at h2
            exact absurd h2 (by simp)
        | some q =>
            rw [hfind] at hstep
            dsimp only at hstep
            by_cases hact : act ≠ q.2
            · rw [if_pos (by simpa using hact)] at hstep
              exact absurd hstep (by simp)
            · rw [if_neg (by simpa using hact)] at hstep
              simp only [Except.ok.injEq, Prod.mk.injEq] at hstep
              obtain ⟨hp, hs⟩ := hstep
              subst hp
              subst hs
              refine ⟨?_, ?_, ?_, ?_⟩
              · intro id hid
                rw [hasKey_dictSetS] at hid
                rw [hasKey_dropKey]
                rcases Bool.or_eq_true_iff.mp hid with hid | hid
                · rw [hdisj id hid]
                  rfl
                · have : id = rid := by simpa using hid
                  subst this
                  simp
              · intro id hid
                rw [hasKey_dropKey] at hid
                exact (Bool.and_eq_true_iff.mp hid).1
              · intro id hid
                rw [hasKey_dictSetS, hid]
                rfl
              · intro id h1 h2
                rw [hasKey_dropKey, h1] at h2
                have hidr : id = rid := by simpa using h2
                subst hidr
                constructor
                · rw [hasKey_dictSetS]
                  simp
                · simpa using hk

/-- Witness for C7 at a concrete step that moves id "A" across. -/
theorem c7_pending_seen_invariant_witness :
    (∀ id, hasKey (dictSetS [("B", "allow")] "A" "block") id = true →
        hasKey (dropKey [("A", "block")] "A") id = false) ∧
    (∀ id, hasKey (dropKey [("A", "block")] "A") id = true →
        hasKey [("A", "block")] id = true) ∧
    (∀ id, hasKey [("B", "allow")] id = true →
        hasKey (dictSetS [("B", "allow")] "A" "block") id = true) ∧
    (∀ id, hasKey [("A", "block")] id = true →
        hasKey (dropKey [("A", "block")] "A") id = false →
        hasKey (dictSetS [("B", "allow")] "A" "block") id = true ∧
        hasKey [("B", "allow")] id = false) := by
  have h := c7_pending_seen_invariant [("A", "block")] [("B", "allow")]
    (decisionFrame "A" "block")
    (dropKey [("A", "block")] "A") (dictSetS [("B", "allow")] "A" "block")
    (by
      intro id h
      simp only [hasKey, List.any_cons, List.any_nil, Bool.or_false,
        decide_eq_true_eq] at h
      subst h
      decide)
    (by decide)
  exact h

/-!
## Claim C1 — order-independent collection of expected decisions
-/

/-- The well-formed decision events of a frame list whose id is still
pending or already seen. -/
def relevantDecisions (pending seen : List (String × String))
    (frames : List JValue) : List (String × String) :=
  (frames.filterMap extract_decision).filter
    (fun d => hasKey pending d.1 || hasKey seen d.1)

theorem hasKey_perm {l1 l2 : List (String × String)} (h : l1.Perm l2) (k : String) :
    hasKey l1 k = hasKey l2 k := by
  cases h1 : hasKey l1 k with
  | true =>
      obtain ⟨v, hm⟩ := hasKey_iff.mp h1
      exact (hasKey_iff.mpr ⟨v, h.subset hm⟩).symm
  | false =>
      cases h2 : hasKey l2 k with
      | false => rfl
      | true =>
          obtain ⟨v, hm⟩ := hasKey_iff.mp h2
          have hcontra : hasKey l1 k = true := hasKey_iff.mpr ⟨v, h.symm.subset hm⟩
          rw [h1] at hcontra
          simp at hcontra

theorem find?_key_of_mem {l : List (String × String)} {k v : String}
    (hnd : (l.map Prod.fst).Nodup) (hm : (k, v) ∈ l) :
    l.find? (fun p => p.1 = k) = some (k, v) := by
  induction l with
  | nil => cases hm
  | cons a as ih =>
      rw [List.map_cons, List.nodup_cons] at hnd
      rcases List.mem_cons.mp hm with hm | hm
      · subst hm
        rw [List.find?_cons_of_pos _ (by simp)]
      · have hk : a.1 ≠ k := by
          intro hc
          exact hnd.1 (hc ▸ List.mem_map.mpr ⟨(k, v), hm, rfl⟩)
        rw [List.find?_cons_of_neg _ (by simpa using hk)]
        exact ih hnd.2 hm

theorem dropKey_eq_self {l : List (String × String)} {k : String}
    (h : hasKey l k = false) : dropKey l k = l := by
  unfold dropKey
  apply List.filter_eq_self.mpr
  intro p hp
  simp only [decide_eq_true_eq]
  intro hc
  have : hasKey l k = true := hasKey_iff.mpr ⟨p.2, by rw [← hc]; exact hp⟩
  rw [h] at this
  cases this

theorem perm_cons_dropKey {l : List (String × String)} {k v : String}
    (hnd : (l.map Prod.fst).Nodup) (hm : (k, v) ∈ l) :
    l.Perm ((k, v) :: dropKey l k) := by
  induction l with
  | nil => cases hm
  | cons a as ih =>
      rw [List.map_cons, List.nodup_cons] at hnd
      rcases List.mem_cons.mp hm with hm | hm
      · subst hm
        have h1 : dropKey ((k, v) :: as) k = dropKey as k := by
          simp [dropKey]
        have hnk : hasKey as k = false := by
          cases h : hasKey as k with
          | false => rfl
          | true => exact absurd (hasKey_eq_mem_keys.mp h) hnd.1
        rw [h1, dropKey_eq_self hnk]
      · have hk : a.1 ≠ k := fun hc => hnd.1 (hc ▸ List.mem_map.mpr ⟨(k, v), hm, rfl⟩)
        have h1 : dropKey (a :: as) k = a :: dropKey as k := by
          simp [dropKey, hk]
        rw [h1]
        refine ((ih hnd.2 hm).cons a).trans ?_
        exact List.Perm.swap _ _ _

theorem dictSetS_append {s : List (String × String)} {k v : String}
    (h : hasKey s k = false) : dictSetS s k v = s ++ [(k, v)] := by
  unfold dictSetS
  rw [if_neg (by rw [h]; simp)]

theorem keys_dictSetS {s : List (String × String)} {k v : String} :
    (dictSetS s k v).map Prod.fst =
      if hasKey s k = true then s.map Prod.fst else s.map Prod.fst ++ [k] := by
  unfold dictSetS
  by_cases h : hasKey s k = true
  · rw [if_pos h, if_pos h]
    rw [List.map_map]
    apply List.map_congr_left
    intro p _
    by_cases hp : p.1 = k
    · simp [hp]
    · simp [hp]
  · rw [if_neg h, if_neg h]
    simp

theorem foldl_dictSetS_keys_nodup :
    ∀ (es acc : List (String × String)),
    (acc.map Prod.fst).Nodup →
    ((es.foldl (fun acc e => dictSetS acc e.1 e.2) acc).map Prod.fst).Nodup := by
  intro es
  induction es with
  | nil => intro acc h; exact h
  | cons e rest ih =>
      intro acc h
      simp only [List.foldl_cons]
      apply ih
      rw [keys_dictSetS]
      by_cases hk : hasKey acc e.1 = true
      · rw [if_pos hk]; exact h
      · rw [if_neg hk]
        rw [List.nodup_append]
        refine ⟨h, by simp, ?_⟩
        intro a ha
        simp only [List.mem_singleton]
        intro hc
        subst hc
        exact hk (hasKey_eq_mem_keys.mpr ha)

theorem toDictLast_keys_nodup (es : List (String × String)) :
    ((toDictLast es).map Prod.fst).Nodup := by
  unfold toDictLast
  exact foldl_dictSetS_keys_nodup es [] (by simp)

theorem collectStep_extract_none (pending seen : List (String × String))
    (f : JValue) (he : extract_decision f = none) :
    collectStep pending seen f = .ok (pending, seen) := by
  unfold collectStep
  rw [he]

theorem collectStep_irrelevant (pending seen : List (String × String))
    (f : JValue) (rid act : String)
    (he : extract_decision f = some (rid, act))
    (hks : hasKey seen rid = false)
    (hkp : hasKey pending rid = false) :
    collectStep pending seen f = .ok (pending, seen) := by
  unfold collectStep
  rw [he]
  dsimp only
  rw [if_neg (by rw [hks]; simp)]
  have hfind : pending.find? (fun p => p.1 = rid) = none := by
    rw [List.find?_eq_none]
    intro p hp
    simp only [decide_eq_true_eq]
    intro hc
    have : hasKey pending rid = true := hasKey_iff.mpr ⟨p.2, by rw [← hc]; exact hp⟩
    rw [hkp] at this
    cases this
  rw [hfind]

theorem collectStep_match (pending seen : List (String × String))
    (f : JValue) (rid act : String)
    (he : extract_decision f = some (rid, act))
    (hks : hasKey seen rid = false)
    (hfind : pending.find? (fun p => p.1 = rid) = some (rid, act)) :
    collectStep pending seen f = .ok (dropKey pending rid, dictSetS seen rid act) := by
  unfold collectStep
  rw [he]
  dsimp only
  rw [if_neg (by rw [hks]; simp), hfind]
  dsimp only
  rw [if_neg (by simp)]

theorem collectLoop_cons_ok {pending seen p2 s2 : List (String × String)}
    {f : JValue} {rest : List JValue}
    (hne : pending ≠ [])
    (hstep : collectStep pending seen f = .ok (p2, s2)) :
    collectLoop pending seen (f :: rest) = collectLoop p2 s2 rest := by
  rw [collectLoop.eq_def]
  rw [if_neg (by simpa [List.isEmpty_iff] using hne)]
  dsimp only
  rw [hstep]

theorem collectLoop_empty (seen : List (String × String)) (frames : List JValue) :
    collectLoop [] seen frames = .ok (seen, frames) := by
  rw [collectLoop.eq_def]
  simp

/-- Completeness of the main collector loop: when the frames that arrive
in time contain exactly one relevant decision per pending id (each
carrying the recorded expected action) and none for already-seen ids, the
loop succeeds, moves every pending entry into the seen map and leaves no
relevant decision among the remaining frames. -/
theorem collectLoop_complete :
    ∀ (frames : List JValue) (pending seen : List (String × String)),
    (pending.map Prod.fst).Nodup →
    (∀ id, hasKey seen id = true → hasKey pending id = false) →
    (relevantDecisions pending seen frames).Perm pending →
    ∃ seen2 rest, collectLoop pending seen frames = .ok (seen2, rest) ∧
      seen2.Perm (seen ++ pending) ∧
      (rest.filterMap extract_decision).filter (fun d => hasKey seen2 d.1) = [] := by
  intro frames
  induction frames with
  | nil =>
      intro pending seen hnd hdisj hD
      have hpe : pending = [] := by
        have h0 : relevantDecisions pending seen [] = [] := rfl
        rw [h0] at hD
        exact (List.nil_perm.mp hD)
      subst hpe
      exact ⟨seen, [], collectLoop_empty seen [], by simp, rfl⟩
  | cons f rest0 ih =>
      intro pending seen hnd hdisj hD
      by_cases hpe : pending = []
      · subst hpe
        refine ⟨seen, f :: rest0, collectLoop_empty seen (f :: rest0), by simp, ?_⟩
        have h1 : relevantDecisions [] seen (f :: rest0) = [] := List.perm_nil.mp hD
        have h2 : ((f :: rest0).filterMap extract_decision).filter
            (fun d => hasKey seen d.1) = relevantDecisions [] seen (f :: rest0) := by
          unfold relevantDecisions
          apply (List.filter_congr ?_).symm
          intro d _
          simp [hasKey]
        rw [h2, h1]
      · cases he : extract_decision f with
        | none =>
            have hsame : (relevantDecisions pending seen rest0).Perm pending := by
              have h0 : relevantDecisions pending seen (f :: rest0) =
                  relevantDecisions pending seen rest0 := by
                unfold relevantDecisions
                rw [List.filterMap_cons_none he]
              rwa [h0] at hD
            obtain ⟨seen2, rest, h1, h2, h3⟩ := ih pending seen hnd hdisj hsame
            exact ⟨seen2, rest,
              by rw [collectLoop_cons_ok hpe (collectStep_extract_none pending seen f he), h1],
              h2, h3⟩
        | some d =>
            obtain ⟨rid, act⟩ := d
            by_cases hkey : (hasKey pending rid || hasKey seen rid) = true
            · -- the head decision is relevant: it must match a pending entry
              have hDcons : ((rid, act) :: relevantDecisions pending seen rest0).Perm
                  pending := by
                have h0 : relevantDecisions pending seen (f :: rest0) =
                    (rid, act) :: relevantDecisions pending seen rest0 := by
                  unfold relevantDecisions
                  rw [List.filterMap_cons_some he, List.filter_cons, if_pos hkey]
                rwa [h0] at hD
              have hmem : (rid, act) ∈ pending := hDcons.subset (by simp)
              have hkp : hasKey pending rid = true := hasKey_iff.mpr ⟨act, hmem⟩
              have hks : hasKey seen rid = false := by
                cases h : hasKey seen rid with
                | false => rfl
                | true =>
                    have := hdisj rid h
                    rw [hkp] at this
                    cases this
              have hfind := find?_key_of_mem hnd hmem
              have hstep := collectStep_match pending seen f rid act he hks hfind
              -- new state
              set p2 := dropKey pending rid with hp2
              have hs2 : dictSetS seen rid act = seen ++ [(rid, act)] :=
                dictSetS_append hks
              -- nodup of the new pending keys
              have hnd2 : (p2.map Prod.fst).Nodup := by
                apply List.Nodup.sublist _ hnd
                apply List.Sublist.map
                exact List.filter_sublist pending
              -- disjointness for the new state
              have hdisj2 : ∀ id, hasKey (dictSetS seen rid act) id = true →
                  hasKey p2 id = false := by
                intro id hid
                rw [hasKey_dictSetS] at hid
                rw [hp2, hasKey_dropKey]
                rcases Bool.or_eq_true_iff.mp hid with hid | hid
                · rw [hdisj id hid]
                  rfl
                · have : id = rid := by simpa using hid
                  subst this
                  simp
              -- the relevant decisions of the tail for the new state
              have hD2 : (relevantDecisions p2 (dictSetS seen rid act) rest0).Perm p2 := by
                have hsamepred : relevantDecisions p2 (dictSetS seen rid act) rest0 =
                    relevantDecisions pending seen rest0 := by
                  unfold relevantDecisions
                  apply List.filter_congr
                  intro d _
                  rw [hp2, hasKey_dropKey, hasKey_dictSetS]
                  by_cases hd : d.1 = rid
                  · rw [hd]
                    simp [hkp]
                  · have hbeq : (d.1 == rid) = false := by simpa using hd
                    rw [hbeq]
                    simp
                rw [hsamepred, hp2]
                exact (hDcons.trans (perm_cons_dropKey hnd hmem)).cons_inv
              obtain ⟨seen2, rest, h1, h2, h3⟩ :=
                ih p2 (dictSetS seen rid act) hnd2 hdisj2 hD2
              refine ⟨seen2, rest,
                by rw [collectLoop_cons_ok hpe hstep, h1], ?_, h3⟩
              -- seen2 is a permutation of seen ++ pending
              refine h2.trans ?_
              rw [hs2, hp2, List.append_assoc]
              apply List.Perm.append_left
              rw [List.singleton_append]
              exact (perm_cons_dropKey hnd hmem).symm
            · -- irrelevant decision: ignored by the loop and by the filter
              have hkp : hasKey pending rid = false := by
                cases h : hasKey pending rid with
                | false => rfl
                | true => exact absurd (by rw [h]; simp : (hasKey pending rid ||
                    hasKey seen rid) = true) hkey
              have hks : hasKey seen rid = false := by
                cases h : hasKey seen rid with
                | false => rfl
                | true => exact absurd (by rw [h]; simp : (hasKey pending rid ||
                    hasKey seen rid) = true) hkey
              have hsame : (relevantDecisions pending seen rest0).Perm pending := by
                have h0 : relevantDecisions pending seen (f :: rest0) =
                    relevantDecisions pending seen rest0 := by
                  unfold relevantDecisions
                  rw [List.filterMap_cons_some he, List.filter_cons, if_neg hkey]
                rwa [h0] at hD
              obtain ⟨seen2, rest, h1, h2, h3⟩ := ih pending seen hnd hdisj hsame
              exact ⟨seen2, rest,
                by rw [collectLoop_cons_ok hpe
                    (collectStep_irrelevant pending seen f rid act he hks hkp), h1],
                h2, h3⟩

/-- Claim C1: for every expectation list (pending map non-empty, actions
all valid) and every inbound frame sequence containing exactly one
well-formed decision event per expected request id carrying the expected
action — in any arrival order, interleaved with arbitrary non-decision or
unknown-id frames — the decision collector succeeds and returns exactly
the expected map (a seen map that is a permutation of the expected
requestId-to-action map, so it covers exactly the expected ids with the
observed = expected actions). -/
theorem c1_order_independent_collection
    (expected_events : List (String × String)) (frames : List JValue)
    (hne : expected_events ≠ [])
    (hval : ∀ p ∈ expected_events, p.2 ∈ validActions)
    (hexact : ((frames.filterMap extract_decision).filter
        (fun d => hasKey (toDictLast expected_events) d.1)).Perm
        (toDictLast expected_events)) :
    ∃ seen, wait_for_decisions expected_events frames = .ok seen ∧
      seen.Perm (toDictLast expected_events) := by
  have hnd := toDictLast_keys_nodup expected_events
  have hdisj : ∀ id, hasKey ([] : List (String × String)) id = true →
      hasKey (toDictLast expected_events) id = false := by
    intro id h
    simp [hasKey] at h
  have hD : (relevantDecisions (toDictLast expected_events) [] frames).Perm
      (toDictLast expected_events) := by
    have heq : relevantDecisions (toDictLast expected_events) [] frames =
        (frames.filterMap extract_decision).filter
          (fun d => hasKey (toDictLast expected_events) d.1) := by
      unfold relevantDecisions
      apply List.filter_congr
      intro d _
      simp [hasKey]
    rw [heq]
    exact hexact
  obtain ⟨seen2, rest, h1, h2, h3⟩ :=
    collectLoop_complete frames (toDictLast expected_events) [] hnd hdisj hD
  have hgrace : graceLoop seen2 rest = .ok () := by
    rw [graceLoop_ok_iff]
    intro d hd
    cases hkk : hasKey seen2 d.1 with
    | false => rfl
    | true =>
        have hmem : d ∈ (rest.filterMap extract_decision).filter
            (fun d => hasKey seen2 d.1) := List.mem_filter.mpr ⟨hd, by rw [hkk]⟩
        rw [h3] at hmem
        cases hmem
  refine ⟨seen2, ?_, by simpa using h2⟩
  simp only [wait_for_decisions]
  rw [h1]
  dsimp only
  rw [hgrace]

/-- Witness for C1: the concrete spec example — expectations
[(A, block), (B, allow)] with decision(B, allow) arriving before
decision(A, block) yield the expected map. -/
theorem c1_order_independent_collection_witness :
    ∃ seen, wait_for_decisions [("A", "block"), ("B", "allow")]
        [decisionFrame "B" "allow", decisionFrame "A" "block"] = .ok seen ∧
      seen.Perm (toDictLast [("A", "block"), ("B", "allow")]) :=
  c1_order_independent_collection [("A", "block"), ("B", "allow")]
    [decisionFrame "B" "allow", decisionFrame "A" "block"]
    (by decide) (by decide) (by decide)

/-!
## Claim C8 — signer determinism and key-order invariance
-/

theorem strLeB_total : ∀ a b, strLeB a b = true ∨ strLeB b a = true
  | [], _ => Or.inl rfl
  | _ :: _, [] => Or.inr rfl
  | a :: as, b :: bs => by
      by_cases h1 : a.toNat < b.toNat
      · left
        simp only [strLeB]
        rw [if_pos h1]
      · by_cases h2 : b.toNat < a.toNat
        · right
          simp only [strLeB]
          rw [if_pos h2]
        · rcases strLeB_total as bs with h | h
          · left
            simp only [strLeB]
            rw [if_neg h1, if_neg h2]
            exact h
          · right
            simp only [strLeB]
            rw [if_neg h2, if_neg h1]
            exact h

theorem strLeB_inv {a b : Char} {as bs : List Char}
    (h : strLeB (a :: as) (b :: bs) = true) :
    a.toNat < b.toNat ∨ (a.toNat = b.toNat ∧ strLeB as bs = true) := by
  by_cases h1 : a.toNat < b.toNat
  · exact Or.inl h1
  · right
    simp only [strLeB] at h
    rw [if_neg h1] at h
    by_cases h2 : b.toNat < a.toNat
    · rw [if_pos h2] at h
      cases h
    · rw [if_neg h2] at h
      exact ⟨by omega, h⟩

theorem strLeB_trans : ∀ a b c, strLeB a b = true → strLeB b c = true →
    strLeB a c = true
  | [], _, _ => fun _ _ => rfl
  | _ :: _, [], _ => fun h _ => absurd h (by simp [strLeB])
  | _ :: _, _ :: _, [] => fun _ h => absurd h (by simp [strLeB])
  | a :: as, b :: bs, c :: cs => fun h1 h2 => by
      rcases strLeB_inv h1 with hab | ⟨hab, h1t⟩ <;>
        rcases strLeB_inv h2 with hbc | ⟨hbc, h2t⟩
      · simp only [strLeB]
        rw [if_pos (by omega)]
      · simp only [strLeB]
        rw [if_pos (by omega)]
      · simp only [strLeB]
        rw [if_pos (by omega)]
      · simp only [strLeB]
        rw [if_neg (by omega), if_neg (by omega)]
        exact strLeB_trans as bs cs h1t h2t

theorem strLeB_antisymm : ∀ a b, strLeB a b = true → strLeB b a = true → a = b
  | [], [] => fun _ _ => rfl
  | [], _ :: _ => fun _ h => absurd h (by simp [strLeB])
  | _ :: _, [] => fun h _ => absurd h (by simp [strLeB])
  | a :: as, b :: bs => fun h1 h2 => by
      rcases strLeB_inv h1 with hab | ⟨hab, h1t⟩
      · rcases strLeB_inv h2 with hba | ⟨hba, _⟩ <;> exact absurd hab (by omega)
      · rcases strLeB_inv h2 with hba | ⟨hba, h2t⟩
        · exact absurd hba (by omega)
        · have hc : a = b := Char.ext (UInt32.toNat.inj hab)
          rw [hc, strLeB_antisymm as bs h1t h2t]

theorem pyStrLe_trans {a b c : String} (h1 : pyStrLe a b = true)
    (h2 : pyStrLe b c = true) : pyStrLe a c = true :=
  strLeB_trans a.data b.data c.data h1 h2

theorem pyStrLe_total (a b : String) : pyStrLe a b = true ∨ pyStrLe b a = true :=
  strLeB_total a.data b.data

theorem pyStrLe_antisymm {a b : String} (h1 : pyStrLe a b = true)
    (h2 : pyStrLe b a = true) : a = b :=
  String.ext (strLeB_antisymm a.data b.data h1 h2)

theorem fieldLe_trans : ∀ (a b c : String × JValue), fieldLe a b = true →
    fieldLe b c = true → fieldLe a c = true :=
  fun _ _ _ h1 h2 => pyStrLe_trans h1 h2

theorem fieldLe_total : ∀ (a b : String × JValue), (fieldLe a b || fieldLe b a) = true := by
  intro a b
  rcases pyStrLe_total a.1 b.1 with h | h <;> simp [fieldLe, h]

/-- Unfolded form of `canonicalize` on arrays. -/
theorem canonicalize_arr (xs : List JValue) :
    canonicalize (.arr xs) = .arr (xs.map canonicalize) := by
  rw [canonicalize]
  rw [List.attach_map_val]

/-- Unfolded form of `canonicalize` on objects: sort the fields by key,
then canonicalize each value. -/
theorem canonicalize_obj (fs : List (String × JValue)) :
    canonicalize (.obj fs) =
      .obj ((fs.mergeSort fieldLe).map (fun kv => (kv.1, canonicalize kv.2))) := by
  rw [canonicalize]
  congr 1
  exact List.attach_map_coe (fs.mergeSort fieldLe) (fun p => (p.1, canonicalize p.2))

/-- Deep key-uniqueness: every object nested anywhere in the value has
pairwise-distinct keys.  Bundles coming from `json.loads` of a JSON
document (the only source the signer reads) always satisfy this. -/
def jsonNodupKeys : JValue → Bool
  | .null => true
  | .bool _ => true
  | .str _ => true
  | .num _ => true
  | .arr xs => xs.attach.all (fun x => jsonNodupKeys x.1)
  | .obj fs =>
      decide ((fs.map Prod.fst).Nodup) &&
        fs.attach.all (fun kv => jsonNodupKeys kv.1.2)
decreasing_by
  · have h := List.sizeOf_lt_of_mem x.2
    simp only [JValue.arr.sizeOf_spec]
    omega
  · have h1 := List.sizeOf_lt_of_mem kv.2
    have h2 : sizeOf kv.1.2 < sizeOf kv.1 := by
      obtain ⟨k, v⟩ := kv.1
      simp only [Prod.mk.sizeOf_spec]
      omega
    simp only [JValue.obj.sizeOf_spec]
    omega

theorem jsonNodupKeys_obj {fs : List (String × JValue)}
    (h : jsonNodupKeys (.obj fs) = true) :
    (fs.map Prod.fst).Nodup ∧ ∀ p ∈ fs, jsonNodupKeys p.2 = true := by
  rw [jsonNodupKeys] at h
  rw [Bool.and_eq_true] at h
  refine ⟨by simpa using h.1, ?_⟩
  intro p hp
  have h2 := h.2
  rw [List.all_eq_true] at h2
  exact h2 ⟨p, hp⟩ (List.mem_attach _ _)

mutual

/-- Values equal up to object-key ordering at any nesting depth: scalars
must be identical, arrays pointwise equivalent (order preserved), objects
equal after some permutation of their field lists with pointwise
key-equal, value-equivalent entries. -/
inductive KeyPermEquiv : JValue → JValue → Prop where
  | null : KeyPermEquiv .null .null
  | bool (b : Bool) : KeyPermEquiv (.bool b) (.bool b)
  | str (s : String) : KeyPermEquiv (.str s) (.str s)
  | num (n : Int) : KeyPermEquiv (.num n) (.num n)
  | arr {xs ys : List JValue} : ListKeyPermEquiv xs ys →
      KeyPermEquiv (.arr xs) (.arr ys)
  | obj {fs gs gs2 : List (String × JValue)} : fs.Perm gs2 →
      FieldsKeyPermEquiv gs2 gs → KeyPermEquiv (.obj fs) (.obj gs)

inductive ListKeyPermEquiv : List JValue → List JValue → Prop where
  | nil : ListKeyPermEquiv [] []
  | cons {x y : JValue} {xs ys : List JValue} : KeyPermEquiv x y →
      ListKeyPermEquiv xs ys → ListKeyPermEquiv (x :: xs) (y :: ys)

inductive FieldsKeyPermEquiv :
    List (String × JValue) → List (String × JValue) → Prop where
  | nil : FieldsKeyPermEquiv [] []
  | cons {k : String} {v w : JValue} {fs gs : List (String × JValue)} :
      KeyPermEquiv v w → FieldsKeyPermEquiv fs gs →
      FieldsKeyPermEquiv ((k, v) :: fs) ((k, w) :: gs)

end

mutual

theorem keyPermEquiv_refl : ∀ v, KeyPermEquiv v v
  | .null => .null
  | .bool b => .bool b
  | .str s => .str s
  | .num n => .num n
  | .arr xs => .arr (listKeyPermEquiv_refl xs)
  | .obj fs => .obj (List.Perm.refl fs) (fieldsKeyPermEquiv_refl fs)

theorem listKeyPermEquiv_refl : ∀ xs, ListKeyPermEquiv xs xs
  | [] => .nil
  | x :: xs => .cons (keyPermEquiv_refl x) (listKeyPermEquiv_refl xs)

theorem fieldsKeyPermEquiv_refl : ∀ fs, FieldsKeyPermEquiv fs fs
  | [] => .nil
  | (k, v) :: fs => .cons (keyPermEquiv_refl v) (fieldsKeyPermEquiv_refl fs)

end

theorem sorted_fields_perm_eq {l1 l2 : List (String × JValue)}
    (hp : l1.Perm l2)
    (hs1 : List.Pairwise (fun a b => fieldLe a b = true) l1)
    (hs2 : List.Pairwise (fun a b => fieldLe a b = true) l2)
    (hnd : (l1.map Prod.fst).Nodup) :
    l1 = l2 := by
  have hnd2 : (l2.map Prod.fst).Nodup := ((hp.map Prod.fst).nodup_iff).mp hnd
  have hne1 : List.Pairwise (fun a b : String × JValue => a.1 ≠ b.1) l1 :=
    List.pairwise_map.mp hnd
  have hne2 : List.Pairwise (fun a b : String × JValue => a.1 ≠ b.1) l2 :=
    List.pairwise_map.mp hnd2
  have hanti : ∀ (a b : String × JValue),
      (fieldLe a b = true ∧ a.1 ≠ b.1) → (fieldLe b a = true ∧ b.1 ≠ a.1) → a = b := by
    rintro a b ⟨hab, hne⟩ ⟨hba, _⟩
    exact absurd (pyStrLe_antisymm hab hba) hne
  haveI : IsAntisymm (String × JValue)
      (fun a b => fieldLe a b = true ∧ a.1 ≠ b.1) := ⟨hanti⟩
  exact List.eq_of_perm_of_sorted hp (hs1.and hne1) (hs2.and hne2)

theorem listEquiv_map_canon : ∀ (xs ys : List JValue),
    ListKeyPermEquiv xs ys →
    (∀ x ∈ xs, ∀ y, jsonNodupKeys x = true → KeyPermEquiv x y →
        canonicalize x = canonicalize y) →
    (∀ x ∈ xs, jsonNodupKeys x = true) →
    xs.map canonicalize = ys.map canonicalize := by
  intro xs
  induction xs with
  | nil =>
      intro ys h ih hnd
      cases h
      rfl
  | cons x xs2 ihx =>
      intro ys h ih hnd
      cases h with
      | cons hx hxs =>
          next y ys2 =>
            simp only [List.map_cons]
            rw [ih x (by simp) y (hnd x (by simp)) hx,
              ihx ys2 hxs (fun a ha w hw he => ih a (by simp [ha]) w hw he)
                (fun a ha => hnd a (by simp [ha]))]

theorem fieldsEquiv_map_canonField : ∀ (fs gs : List (String × JValue)),
    FieldsKeyPermEquiv fs gs →
    (∀ p ∈ fs, ∀ w, jsonNodupKeys p.2 = true → KeyPermEquiv p.2 w →
        canonicalize p.2 = canonicalize w) →
    (∀ p ∈ fs, jsonNodupKeys p.2 = true) →
    fs.map (fun kv => (kv.1, canonicalize kv.2)) =
      gs.map (fun kv => (kv.1, canonicalize kv.2)) := by
  intro fs
  induction fs with
  | nil =>
      intro gs h ih hnd
      cases h
      rfl
  | cons p fs2 ihf =>
      intro gs h ih hnd
      obtain ⟨k, v⟩ := p
      cases h with
      | cons hv hfs =>
          next w gs2 =>
            simp only [List.map_cons]
            rw [ih (k, v) (by simp) w (hnd (k, v) (by simp)) hv,
              ihf gs2 hfs (fun a ha u hu he => ih a (by simp [ha]) u hu he)
                (fun a ha => hnd a (by simp [ha]))]

theorem canonicalize_keyPermEquiv_fuel :
    ∀ (n : Nat) (o1 o2 : JValue), sizeOf o1 ≤ n →
      jsonNodupKeys o1 = true → KeyPermEquiv o1 o2 →
      canonicalize o1 = canonicalize o2 := by
  intro n
  induction n with
  | zero =>
      intro o1 o2 hsz hnd h
      exact absurd hsz (by cases o1 <;> simp)
  | succ n ihn =>
      intro o1 o2 hsz hnd h
      cases h with
      | null => rfl
      | bool b => rfl
      | str s => rfl
      | num m => rfl
      | arr hxs =>
          next xs ys =>
            rw [canonicalize_arr, canonicalize_arr]
            congr 1
            apply listEquiv_map_canon xs ys hxs
            · intro x hx y hxnd hxy
              apply ihn x y ?_ hxnd hxy
              have h1 := List.sizeOf_lt_of_mem hx
              have h2 : sizeOf (JValue.arr xs) ≤ n + 1 := hsz
              simp only [JValue.arr.sizeOf_spec] at h2
              omega
            · intro x hx
              have h1 := hnd
              rw [jsonNodupKeys] at h1
              rw [List.all_eq_true] at h1
              exact h1 ⟨x, hx⟩ (List.mem_attach _ _)
      | obj hperm hfe =>
          next gs gs2 =>
            obtain ⟨hndk, hndv⟩ := jsonNodupKeys_obj hnd
            next fs =>
              rw [canonicalize_obj, canonicalize_obj]
              congr 1
              have hcond : ∀ a ∈ fs, ∀ b ∈ fs, fieldLe a b =
                  fieldLe (a.1, canonicalize a.2) (b.1, canonicalize b.2) :=
                fun _ _ _ _ => rfl
              have hcond2 : ∀ a ∈ gs, ∀ b ∈ gs, fieldLe a b =
                  fieldLe (a.1, canonicalize a.2) (b.1, canonicalize b.2) :=
                fun _ _ _ _ => rfl
              rw [List.map_mergeSort hcond, List.map_mergeSort hcond2]
              -- the two sorted lists are permutations of each other
              have hmapeq : gs2.map (fun kv => (kv.1, canonicalize kv.2)) =
                  gs.map (fun kv => (kv.1, canonicalize kv.2)) := by
                apply fieldsEquiv_map_canonField gs2 gs hfe
                · intro p hp w hw he
                  apply ihn p.2 w ?_ hw he
                  have hpf : p ∈ fs := hperm.symm.subset hp
                  have h1 := List.sizeOf_lt_of_mem hpf
                  have h2 : sizeOf p.2 < sizeOf p := by
                    obtain ⟨a, b⟩ := p
                    simp only [Prod.mk.sizeOf_spec]
                    omega
                  have h3 : sizeOf (JValue.obj fs) ≤ n + 1 := hsz
                  simp only [JValue.obj.sizeOf_spec] at h3
                  omega
                · intro p hp
                  exact hndv p (hperm.symm.subset hp)
              have hpm : (fs.map (fun kv => (kv.1, canonicalize kv.2))).Perm
                  (gs.map (fun kv => (kv.1, canonicalize kv.2))) := by
                rw [← hmapeq]
                exact hperm.map _
              have hndf : ((fs.map (fun kv => (kv.1, canonicalize kv.2))).map
                  Prod.fst).Nodup := by
                rw [List.map_map]
                have : (Prod.fst ∘ fun kv : String × JValue =>
                    (kv.1, canonicalize kv.2)) = Prod.fst := by
                  funext p
                  rfl
                rw [this]
                exact hndk
              apply sorted_fields_perm_eq
              · exact ((List.mergeSort_perm _ _).trans hpm).trans
                  (List.mergeSort_perm _ _).symm
              · exact List.sorted_mergeSort fieldLe_trans fieldLe_total _
              · exact List.sorted_mergeSort fieldLe_trans fieldLe_total _
              · have := (List.mergeSort_perm
                    (fs.map (fun kv => (kv.1, canonicalize kv.2))) fieldLe).map Prod.fst
                exact (this.nodup_iff).mpr hndf

/-- Canonicalization is invariant under reordering of object keys at any
nesting depth (for values with unique keys, as produced by
`json.loads`). -/
theorem canonicalize_eq_of_keyPermEquiv {o1 o2 : JValue}
    (hnd : jsonNodupKeys o1 = true) (h : KeyPermEquiv o1 o2) :
    canonicalize o1 = canonicalize o2 :=
  canonicalize_keyPermEquiv_fuel (sizeOf o1) o1 o2 le_rfl hnd h

/-- Claim C8: the bundle signer is deterministic and key-order invariant.
Signing canonicalizes the unsigned object by recursively sorting object
keys (arrays untouched), serializes the canonical form compactly and
applies HMAC-SHA256 (entering the model as the arbitrary digest function
`hmacSha256Hex`, so the statement holds for the real digest).  Hence
signing the same unsigned object twice with the same key yields the
identical signed result, and two unsigned objects equal up to object-key
ordering at any nesting depth receive the same signature. -/
theorem c8_signer_deterministic_key_order_invariant
    (hmacSha256Hex : String → String → String)
    (o1 o2 : List (String × JValue)) (key : String)
    (hnd : jsonNodupKeys (.obj o1) = true)
    (h : KeyPermEquiv (.obj o1) (.obj o2)) :
    sign_bundle hmacSha256Hex o1 key = sign_bundle hmacSha256Hex o1 key ∧
    bundle_signature hmacSha256Hex o1 key = bundle_signature hmacSha256Hex o2 key := by
  refine ⟨rfl, ?_⟩
  unfold bundle_signature
  rw [canonicalize_eq_of_keyPermEquiv hnd h]

-- Witness for C8: two concrete bundles that differ only in key order,
-- at the top level and inside a nested object, signed with one concrete
-- digest function.
set_option maxRecDepth 8192 in
unseal jsonNodupKeys in
theorem c8_signer_witness :
    sign_bundle (fun key msg => key ++ ":" ++ msg)
        [("b", .num 1), ("a", .obj [("y", .num 2), ("z", .null)])] "k" =
      sign_bundle (fun key msg => key ++ ":" ++ msg)
        [("b", .num 1), ("a", .obj [("y", .num 2), ("z", .null)])] "k" ∧
    bundle_signature (fun key msg => key ++ ":" ++ msg)
        [("b", .num 1), ("a", .obj [("y", .num 2), ("z", .null)])] "k" =
      bundle_signature (fun key msg => key ++ ":" ++ msg)
        [("a", .obj [("z", .null), ("y", .num 2)]), ("b", .num 1)] "k" := by
  apply c8_signer_deterministic_key_order_invariant (fun key msg => key ++ ":" ++ msg)
    [("b", .num 1), ("a", .obj [("y", .num 2), ("z", .null)])]
    [("a", .obj [("z", .null), ("y", .num 2)]), ("b", .num 1)] "k"
  · decide
  · refine @KeyPermEquiv.obj _ _
      [("a", .obj [("y", .num 2), ("z", .null)]), ("b", .num 1)] ?_ ?_
    · exact List.Perm.swap _ _ _
    · refine FieldsKeyPermEquiv.cons ?_ ?_
      · refine @KeyPermEquiv.obj _ _ [("z", .null), ("y", .num 2)] ?_ ?_
        · exact List.Perm.swap _ _ _
        · exact fieldsKeyPermEquiv_refl _
      · exact fieldsKeyPermEquiv_refl _
